import Mathlib

set_option maxRecDepth 10000

set_option allowUnsafeReducibility true

attribute [local semireducible] Rat.add Rat.mul Rat.sub Rat.inv Rat.div

namespace Moneyalloc

/-- Bucket identifiers are opaque strings (currency/time-horizon slices). -/
abbrev Bucket := String

/-- Sleeve identifiers are strings; the source uses "rates", "tips", "credit". -/
abbrev Sleeve := String

/-- One constructor per distinct `ValueError` raise site in
`risk_optimizer.py`, so that which error a run produces is observable. -/
inductive OptError where
  | noPositiveWeight
  | nonPositiveTotal
  | missingHorizons (buckets : List Bucket)
  | keyError (bucket : Bucket)
  | noBuckets
  | tenorExceedsHorizon (bucket : Bucket)
  | noSleevesForBucket (bucket : Bucket)
  | noSleevesAvailable (bucket : Bucket)
  | invalidTenor (bucket : Bucket) (sleeve : Sleeve)
  | noInvestableSleeves
  | noConstraints
  | unableToSolve
  | unableToEqualise
  | negativeAllocations
  | bucketTargetsUnsatisfied
  | exposuresNotEqual
  | zeroAllocation
  deriving DecidableEq, Repr

/-- Input of `run_risk_equal_optimization`; dictionaries are embedded as
insertion-ordered association lists, matching Python dict iteration order. -/
structure ProblemSpec where
  bucket_weights : List (Bucket × ℚ)
  bucket_horizons : List (Bucket × ℚ)
  tenors : List ((Bucket × Sleeve) × Option ℚ)
  bucket_currencies : List (Bucket × String)
  deriving DecidableEq, Repr

/-- Output container of the optimiser. -/
structure RiskOptimizationResult where
  allocations : List ((Bucket × Sleeve) × ℚ)
  by_bucket : List (Bucket × ℚ)
  by_sleeve : List (Sleeve × ℚ)
  deriving DecidableEq, Repr

/-- The module-level float tolerance `_FLOAT_TOLERANCE = 1e-9`. -/
def FLOAT_TOLERANCE : ℚ := 1 / 10 ^ 9

/-- First-match association-list lookup, mirroring Python `dict.get`. -/
def alookup {α β : Type} [DecidableEq α] : List (α × β) → α → Option β
  | [], _ => none
  | (k', v) :: rest, k => if k' = k then some v else alookup rest k

/-- Lookup with a default value, mirroring `dict.get(k, default)`. -/
def alookupD {α β : Type} [DecidableEq α] (d : List (α × β)) (k : α) (v₀ : β) : β :=
  (alookup d k).getD v₀

/-- Python `d[k] = v`: update the existing entry in place, else append. -/
def aset {α β : Type} [DecidableEq α] : List (α × β) → α → β → List (α × β)
  | [], k, v => [(k, v)]
  | (k', v') :: rest, k, v =>
      if k' = k then (k', v) :: rest else (k', v') :: aset rest k v

/-- Python `d[k] = d.get(k, 0.0) + v`, the accumulation idiom of the source. -/
def addTo {α : Type} [DecidableEq α] (d : List (α × ℚ)) (k : α) (v : ℚ) : List (α × ℚ) :=
  aset d k (alookupD d k 0 + v)

/-- Stable insertion used to model Python `sorted`; `lt` is the strict
comparison of the sort key. -/
def insertBy {α : Type} (lt : α → α → Bool) (x : α) : List α → List α
  | [] => [x]
  | y :: ys => if lt y x then y :: insertBy lt x ys else x :: y :: ys

/-- Stable sort modelling Python `sorted` with strict comparison `lt`. -/
def sortBy {α : Type} (lt : α → α → Bool) (l : List α) : List α :=
  l.foldr (insertBy lt) []

/-- Structural lexicographic comparison of character lists by code point,
Python's string ordering. -/
def charListLt : List Char → List Char → Bool
  | [], [] => false
  | [], _ :: _ => true
  | _ :: _, [] => false
  | c₁ :: r₁, c₂ :: r₂ =>
      if c₁.val < c₂.val then true
      else if c₂.val < c₁.val then false
      else charListLt r₁ r₂

/-- Strict string comparison used for Python `sorted` over strings. -/
def strLt (a b : String) : Bool := charListLt a.data b.data

/-- Strict lexicographic comparison of `(horizon, bucket-name)` sort keys. -/
def bucketKeyLt (horizons : List (Bucket × ℚ)) (b₁ b₂ : Bucket) : Bool :=
  let h₁ := alookupD horizons b₁ 0
  let h₂ := alookupD horizons b₂ 0
  decide (h₁ < h₂) || (decide (h₁ = h₂) && strLt b₁ b₂)

/-- Strict lexicographic comparison on `(sleeve, tenor)` pairs, modelling
`sorted(sleeves.items())`. -/
def pairLt (p₁ p₂ : Sleeve × ℚ) : Bool :=
  strLt p₁.1 p₂.1 || (decide (p₁.1 = p₂.1) && decide (p₁.2 < p₂.2))

/-- Embedding of `_normalise_weights`: keep strictly positive weights and
divide by their total. -/
def normalise_weights (values : List (Bucket × ℚ)) : Except OptError (List (Bucket × ℚ)) :=
  let positive := values.filter (fun p => decide (0 < p.2))
  if positive.isEmpty then .error .noPositiveWeight
  else
    let total := (positive.map Prod.snd).sum
    if total ≤ 0 then .error .nonPositiveTotal
    else .ok (positive.map (fun p => (p.1, p.2 / total)))

/-- Embedding of `_sorted_buckets`: reject buckets lacking a horizon, then
sort by ascending `(horizon, name)`. -/
def sorted_buckets (weights horizons : List (Bucket × ℚ)) : Except OptError (List Bucket) :=
  let missing := (weights.map Prod.fst).filter (fun b => (alookup horizons b).isNone)
  if ¬ missing.isEmpty then .error (.missingHorizons (sortBy strLt missing))
  else .ok (sortBy (bucketKeyLt horizons) (weights.map Prod.fst))

/-- One iteration of the `for (source_bucket, sleeve), tenor in tenors.items()`
loop inside `_tenors_for_bucket`. -/
def tenorStep (bucket : Bucket) (bucket_horizon : ℚ) (available : List (Sleeve × ℚ))
    (entry : (Bucket × Sleeve) × Option ℚ) : Except OptError (List (Sleeve × ℚ)) :=
  if entry.1.1 ≠ bucket then .ok available
  else
    match entry.2 with
    | none => .ok available
    | some tenor =>
        if tenor ≤ 0 then .ok available
        else if FLOAT_TOLERANCE < tenor - bucket_horizon then
          .error (.tenorExceedsHorizon bucket)
        else
          match alookup available entry.1.2 with
          | none => .ok (aset available entry.1.2 tenor)
          | some previous_tenor => .ok (aset available entry.1.2 (min previous_tenor tenor))

/-- Sequential fold of `tenorStep` over the tenor entries. -/
def tenorFold (bucket : Bucket) (bucket_horizon : ℚ)
    (entries : List ((Bucket × Sleeve) × Option ℚ)) (available : List (Sleeve × ℚ)) :
    Except OptError (List (Sleeve × ℚ)) :=
  match entries with
  | [] => .ok available
  | e :: rest =>
      match tenorStep bucket bucket_horizon available e with
      | .error err => .error err
      | .ok available' => tenorFold bucket bucket_horizon rest available'

/-- Embedding of `_tenors_for_bucket`: start from the inherited sleeves,
fold the bucket's own tenor entries, and reject an empty outcome. -/
def tenors_for_bucket (bucket : Bucket) (horizons : List (Bucket × ℚ))
    (tenors : List ((Bucket × Sleeve) × Option ℚ)) (previous : List (Sleeve × ℚ)) :
    Except OptError (List (Sleeve × ℚ)) :=
  match alookup horizons bucket with
  | none => .error (.keyError bucket)
  | some bucket_horizon =>
      match tenorFold bucket bucket_horizon tenors previous with
      | .error err => .error err
      | .ok available =>
          if available.isEmpty then .error (.noSleevesForBucket bucket)
          else .ok available

/-- The discovery loop of `run_risk_equal_optimization`: visit buckets in
order, threading the inherited sleeve set, and record each bucket's sleeves. -/
def discoverSleeves (spec : ProblemSpec) (buckets : List Bucket)
    (previous : List (Sleeve × ℚ)) :
    Except OptError (List (Bucket × List (Sleeve × ℚ))) :=
  match buckets with
  | [] => .ok []
  | b :: rest =>
      match tenors_for_bucket b spec.bucket_horizons spec.tenors previous with
      | .error err => .error err
      | .ok sleeves =>
          if sleeves.isEmpty then .error (.noSleevesAvailable b)
          else
            match discoverSleeves spec rest sleeves with
            | .error err => .error err
            | .ok more => .ok ((b, sleeves) :: more)

/-- Variables for one bucket, from its sleeve map sorted as
`sorted(sleeves.items())`; a non-positive stored tenor raises. -/
def varsForBucket (bucket : Bucket) : List (Sleeve × ℚ) → Except OptError (List (Bucket × Sleeve × ℚ))
  | [] => .ok []
  | (sleeve, tenor) :: rest =>
      if tenor ≤ 0 then .error (.invalidTenor bucket sleeve)
      else
        match varsForBucket bucket rest with
        | .error e => .error e
        | .ok more => .ok ((bucket, sleeve, tenor) :: more)

/-- The variable-construction loop over buckets in order. -/
def buildVariables : List (Bucket × List (Sleeve × ℚ)) → Except OptError (List (Bucket × Sleeve × ℚ))
  | [] => .ok []
  | (b, sleeves) :: rest =>
      match varsForBucket b (sortBy pairLt sleeves) with
      | .error e => .error e
      | .ok vs =>
          match buildVariables rest with
          | .error e => .error e
          | .ok more => .ok (vs ++ more)

/-- Dot product of coefficient vectors, truncating like Python `zip`. -/
def dot (a b : List ℚ) : ℚ :=
  ((a.zip b).map (fun p => p.1 * p.2)).sum

/-- Coefficient row of one bucket-share constraint. -/
def bucketRow (vars : List (Bucket × Sleeve × ℚ)) (b : Bucket) : List ℚ :=
  vars.map (fun v => if v.1 = b then (1 : ℚ) else 0)

/-- All bucket-share constraint rows with their right-hand sides. -/
def bucketRowsOf (ordered : List Bucket) (vars : List (Bucket × Sleeve × ℚ))
    (normalised : List (Bucket × ℚ)) : List (List ℚ × ℚ) :=
  ordered.map (fun b => (bucketRow vars b, alookupD normalised b 0))

/-- The sorted set of sleeves appearing among the variables. -/
def sleevesPresent (vars : List (Bucket × Sleeve × ℚ)) : List Sleeve :=
  sortBy strLt (vars.map (fun v => v.2.1)).dedup

/-- Coefficient row equalising sleeve `s` against the base sleeve. -/
def riskRow (vars : List (Bucket × Sleeve × ℚ)) (base s : Sleeve) : List ℚ :=
  vars.map (fun v => if v.2.1 = s then v.2.2 else if v.2.1 = base then -v.2.2 else 0)

/-- All risk-equalisation rows (rhs 0), one per non-base present sleeve. -/
def riskRowsOf (vars : List (Bucket × Sleeve × ℚ)) : List (List ℚ × ℚ) :=
  match sleevesPresent vars with
  | [] => []
  | base :: others =>
      others.filterMap (fun s =>
        let row := riskRow vars base s
        if row.any (fun x => decide (x ≠ 0)) then some (row, (0 : ℚ)) else none)

/-- Round to the nearest integer with ties to even, as Python `round`. -/
def roundHalfEven (q : ℚ) : ℤ :=
  let f := ⌊q⌋
  let r := q - f
  if r < 1 / 2 then f
  else if 1 / 2 < r then f + 1
  else if f % 2 = 0 then f else f + 1

/-- Python `round(tenor_value, 9)`, the `_tenor_group_key` helper. -/
def tenor_group_key (tenor_value : ℚ) : ℚ :=
  (roundHalfEven (tenor_value * 10 ^ 9) : ℚ) / 10 ^ 9

/-- Append index `i` into the (sleeve, rounded tenor) / currency group table. -/
def addGroupIdx (g : List ((Sleeve × ℚ) × List (String × List Nat)))
    (key : Sleeve × ℚ) (c : String) (i : Nat) :
    List ((Sleeve × ℚ) × List (String × List Nat)) :=
  let cmap := alookupD g key []
  let lst := alookupD cmap c []
  aset g key (aset cmap c (lst ++ [i]))

/-- The `grouped` table of the currency-balancing block. -/
def buildGrouped (spec : ProblemSpec) (vars : List (Bucket × Sleeve × ℚ)) :
    List ((Sleeve × ℚ) × List (String × List Nat)) :=
  vars.enum.foldl
    (fun g p =>
      addGroupIdx g (p.2.2.1, tenor_group_key p.2.2.2)
        (alookupD spec.bucket_currencies p.2.1 "") p.1) []

/-- Currency-balancing coefficient row: +1 on the currency's indices, -1 on
the reference currency's indices (accumulated, like `+=` on a zero row). -/
def curRow (n : Nat) (idxs refIdx : List Nat) : List ℚ :=
  (List.range n).map (fun j => ((idxs.count j : ℚ) - (refIdx.count j : ℚ)))

/-- All currency-balancing rows (rhs 0), in group insertion order then
sorted-currency order. -/
def currencyRowsOf (spec : ProblemSpec) (vars : List (Bucket × Sleeve × ℚ)) :
    List (List ℚ × ℚ) :=
  let n := vars.length
  (buildGrouped spec vars).flatMap (fun p =>
    let cmap := p.2
    if cmap.length ≤ 1 then []
    else
      match sortBy strLt (cmap.map Prod.fst) with
      | [] => []
      | ref :: others =>
          let refIdx := alookupD cmap ref []
          if refIdx.isEmpty then []
          else
            others.flatMap (fun c =>
              let idxs := alookupD cmap c []
              if idxs.isEmpty then []
              else
                let row := curRow n idxs refIdx
                if row.any (fun x => decide (x ≠ 0)) then [(row, (0 : ℚ))] else []))

/-- Entry of a coefficient vector (out-of-range reads as 0). -/
def vget (row : List ℚ) (j : Nat) : ℚ := row.getD j 0

/-- Entry of a coefficient matrix (out-of-range reads as 0). -/
def mget (m : List (List ℚ)) (i j : Nat) : ℚ := vget (m.getD i []) j

/-- Partial pivoting: the first row index in `[col, size)` attaining the
maximal absolute value in column `col`, as Python `max(range(col, size), key=...)`. -/
def pivotIndex (aug : List (List ℚ)) (col size : Nat) : Nat :=
  match (List.range size).drop col with
  | [] => col
  | r0 :: rest =>
      rest.foldl (fun best r => if |mget aug best col| < |mget aug r col| then r else best) r0

/-- Swap two rows of the augmented matrix. -/
def swapRows (aug : List (List ℚ)) (i j : Nat) : List (List ℚ) :=
  let ri := aug.getD i []
  let rj := aug.getD j []
  (aug.set i rj).set j ri

/-- One column step of the Gauss-Jordan loop in `_solve_normal_equations`. -/
def elimStep (size : Nat) (aug : List (List ℚ)) (col : Nat) : Except OptError (List (List ℚ)) :=
  let pivot_row := pivotIndex aug col size
  let pivot_value := mget aug pivot_row col
  if |pivot_value| ≤ 1 / 10 ^ 12 then .error .unableToSolve
  else
    let aug₁ := if pivot_row ≠ col then swapRows aug col pivot_row else aug
    let pv := mget aug₁ col col
    let divided := (aug₁.getD col []).mapIdx (fun idx v => if col ≤ idx then v / pv else v)
    let aug₂ := aug₁.set col divided
    .ok (aug₂.mapIdx (fun r row =>
      if r = col then row
      else
        let factor := vget row col
        if |factor| ≤ 1 / 10 ^ 12 then row
        else row.mapIdx (fun idx v => if col ≤ idx then v - factor * vget divided idx else v)))

/-- Fold of `elimStep` over the columns. -/
def gaussFold (size : Nat) (aug : List (List ℚ)) : List Nat → Except OptError (List (List ℚ))
  | [] => .ok aug
  | c :: rest =>
      match elimStep size aug c with
      | .error e => .error e
      | .ok aug' => gaussFold size aug' rest

/-- Embedding of `_solve_normal_equations` (Gauss-Jordan with partial
pivoting on the augmented matrix). -/
def solve_normal_equations (matrix : List (List ℚ)) (vector : List ℚ) :
    Except OptError (List ℚ) :=
  let size := matrix.length
  let augmented := matrix.enum.map (fun p => p.2 ++ [vector.getD p.1 0])
  match gaussFold size augmented (List.range size) with
  | .error e => .error e
  | .ok aug => .ok ((List.range size).map (fun i => mget aug i size))

/-- The Gram matrix `rows · rowsᵀ` with `1e-12` added on the diagonal. -/
def gramOf (rows : List (List ℚ)) : List (List ℚ) :=
  rows.enum.map (fun pi =>
    rows.enum.map (fun pj => dot pi.2 pj.2 + if pi.1 = pj.1 then 1 / 10 ^ 12 else 0))

/-- Recover the primal solution `x = rowsᵀ · multipliers`, columnwise as in
the source. -/
def recoverSolution (rows : List (List ℚ)) (multipliers : List ℚ) (num_vars : Nat) :
    List ℚ :=
  (List.range num_vars).map (fun column =>
    ((rows.zip multipliers).map (fun p => vget p.1 column * p.2)).sum)

/-- Embedding of `_solve_with_multipliers`: solve the regularised normal
equations for the Lagrange multipliers, then recover the solution. -/
def solve_with_multipliers (rows : List (List ℚ)) (rhs : List ℚ) (num_vars : Nat) :
    Except OptError (List ℚ) :=
  match solve_normal_equations (gramOf rows) rhs with
  | .error _ => .error .unableToEqualise
  | .ok multipliers => .ok (recoverSolution rows multipliers num_vars)

/-- Sum of squared constraint residuals of a candidate solution. -/
def residualSumSq (rows : List (List ℚ)) (rhs : List ℚ) (solution : List ℚ) : ℚ :=
  ((rows.zip rhs).map (fun p => (dot p.1 solution - p.2) ^ 2)).sum

/-- Python `min` over a list (0 on the empty list, which never occurs). -/
def listMin : List ℚ → ℚ
  | [] => 0
  | [x] => x
  | x :: y :: rest => min x (listMin (y :: rest))

/-- Clamp negative entries to zero, as `value if value > 0.0 else 0.0`. -/
def clampSolution (solution : List ℚ) : List ℚ :=
  solution.map (fun v => if 0 < v then v else 0)

/-- Python `math.isclose` with explicit relative and absolute tolerances. -/
def isclose (a b rel_tol abs_tol : ℚ) : Bool :=
  decide (|a - b| ≤ max (rel_tol * max |a| |b|) abs_tol)

/-- Total of the (clamped) solution over one bucket's variables. -/
def bucketTotal (vars : List (Bucket × Sleeve × ℚ)) (solution : List ℚ) (b : Bucket) : ℚ :=
  ((vars.zip solution).map (fun p => if p.1.1 = b then p.2 else 0)).sum

/-- The post-clamp verification that bucket totals still match the targets. -/
def bucketTotalsOk (ordered : List Bucket) (vars : List (Bucket × Sleeve × ℚ))
    (normalised : List (Bucket × ℚ)) (solution : List ℚ) : Bool :=
  ordered.all (fun b =>
    isclose (bucketTotal vars solution b) (alookupD normalised b 0) (1 / 10 ^ 9) (1 / 10 ^ 9))

/-- The `exposure_by_sleeve` accumulation dictionary. -/
def exposureDict (vars : List (Bucket × Sleeve × ℚ)) (solution : List ℚ) :
    List (Sleeve × ℚ) :=
  (vars.zip solution).foldl (fun d p => addTo d p.1.2.1 (p.1.2.2 * p.2)) []

/-- The risk-balancing confirmation over the realised exposures. -/
def exposuresOk (vars : List (Bucket × Sleeve × ℚ)) (solution : List ℚ) : Bool :=
  if (sleevesPresent vars).length ≤ 1 then true
  else
    match (exposureDict vars solution).map Prod.snd with
    | [] => true
    | target :: rest => rest.all (fun e => isclose e target (1 / 10 ^ 8) (1 / 10 ^ 8))

/-- One iteration of the aggregation loop: skip entries at or below the
float tolerance, otherwise record the allocation and update both totals. -/
def assembleStep (res : RiskOptimizationResult) (p : (Bucket × Sleeve × ℚ) × ℚ) :
    RiskOptimizationResult :=
  if p.2 ≤ FLOAT_TOLERANCE then res
  else
    { allocations := aset res.allocations (p.1.1, p.1.2.1) p.2
      by_bucket := addTo res.by_bucket p.1.1 p.2
      by_sleeve := addTo res.by_sleeve p.1.2.1 p.2 }

/-- Build `allocations`, `by_bucket` and `by_sleeve`, skipping entries at or
below the float tolerance. -/
def assembleResult (vars : List (Bucket × Sleeve × ℚ)) (solution : List ℚ) :
    RiskOptimizationResult :=
  (vars.zip solution).foldl assembleStep ⟨[], [], []⟩

/-- Total allocated mass, `sum(by_bucket.values())`. -/
def totalAllocated (res : RiskOptimizationResult) : ℚ :=
  (res.by_bucket.map Prod.snd).sum

/-- Full constraint system (rows with right-hand sides) in source order:
bucket constraints, then risk equalisation, then currency balancing. -/
def allRowsOf (spec : ProblemSpec) (ordered : List Bucket)
    (vars : List (Bucket × Sleeve × ℚ)) (normalised : List (Bucket × ℚ)) :
    List (List ℚ × ℚ) :=
  bucketRowsOf ordered vars normalised ++ riskRowsOf vars ++ currencyRowsOf spec vars

/-- Embedding of `run_risk_equal_optimization`: the full pipeline. -/
def run_risk_equal_optimization (spec : ProblemSpec) :
    Except OptError RiskOptimizationResult :=
  match normalise_weights spec.bucket_weights with
  | .error e => .error e
  | .ok normalised =>
      match sorted_buckets normalised spec.bucket_horizons with
      | .error e => .error e
      | .ok ordered_buckets =>
          if ordered_buckets.isEmpty then .error .noBuckets
          else
            match discoverSleeves spec ordered_buckets [] with
            | .error e => .error e
            | .ok bucket_sleeve_tenors =>
                match buildVariables bucket_sleeve_tenors with
                | .error e => .error e
                | .ok vars =>
                    if vars.isEmpty then .error .noInvestableSleeves
                    else
                      let rowsRhs := allRowsOf spec ordered_buckets vars normalised
                      if rowsRhs.isEmpty then .error .noConstraints
                      else
                        let rows := rowsRhs.map Prod.fst
                        let rhs := rowsRhs.map Prod.snd
                        match solve_with_multipliers rows rhs vars.length with
                        | .error e => .error e
                        | .ok solution =>
                            if 1 / 10 ^ 16 < residualSumSq rows rhs solution then
                              .error .unableToEqualise
                            else if listMin solution < -(1 / 10 ^ 9) then
                              .error .negativeAllocations
                            else
                              let clamped := clampSolution solution
                              if ¬ bucketTotalsOk ordered_buckets vars normalised clamped then
                                .error .bucketTargetsUnsatisfied
                              else if ¬ exposuresOk vars clamped then
                                .error .exposuresNotEqual
                              else
                                let res := assembleResult vars clamped
                                if totalAllocated res ≤ FLOAT_TOLERANCE then
                                  .error .zeroAllocation
                                else .ok res

/-- Two buckets of one currency; bucket B supplies no tenor entry of its own
and inherits both sleeves from bucket A. -/
def specInherit : ProblemSpec :=
  { bucket_weights := [("A", 50), ("B", 50)]
    bucket_horizons := [("A", 1), ("B", 2)]
    tenors := [(("A", "rates"), some 1), (("A", "tips"), some 1)]
    bucket_currencies := [("A", "USD"), ("B", "USD")] }

/-- One bucket of target weight 50 with a single sleeve. -/
def specScale : ProblemSpec :=
  { bucket_weights := [("USD", 50)]
    bucket_horizons := [("USD", 5)]
    tenors := [(("USD", "rates"), some 5)]
    bucket_currencies := [("USD", "USD")] }

/-- One positively weighted bucket with no tenor data at all. -/
def specEmptyTenors : ProblemSpec :=
  { bucket_weights := [("A", 1)]
    bucket_horizons := [("A", 1)]
    tenors := []
    bucket_currencies := [("A", "USD")] }

/-- One bucket carrying a valid rates tenor and a negative tips tenor. -/
def specNegativeTenor : ProblemSpec :=
  { bucket_weights := [("A", 1)]
    bucket_horizons := [("A", 1)]
    tenors := [(("A", "rates"), some 1), (("A", "tips"), some (-1))]
    bucket_currencies := [("A", "USD")] }

/-- Two buckets in different currencies sharing the same sleeve and tenor. -/
def specTwoCurrencies : ProblemSpec :=
  { bucket_weights := [("A", 50), ("B", 50)]
    bucket_horizons := [("A", 1), ("B", 1)]
    tenors := [(("A", "rates"), some (1 / 2)), (("B", "rates"), some (1 / 2))]
    bucket_currencies := [("A", "USD"), ("B", "EUR")] }

/-- A zero-weight bucket carrying a tenor entry far above its horizon, next
to a well-formed positively weighted bucket. -/
def specZeroWeightBadTenor : ProblemSpec :=
  { bucket_weights := [("A", 1), ("B", 0)]
    bucket_horizons := [("A", 1), ("B", 1)]
    tenors := [(("A", "rates"), some 1), (("B", "rates"), some 5)]
    bucket_currencies := [("A", "USD"), ("B", "USD")] }

/-- One bucket whose only tenor entry exceeds its horizon. -/
def specTenorTooLong : ProblemSpec :=
  { bucket_weights := [("A", 1)]
    bucket_horizons := [("A", 1)]
    tenors := [(("A", "rates"), some 2)]
    bucket_currencies := [("A", "USD")] }

/-- A positive bucket weight next to a negative one that is silently dropped. -/
def specNegativeWeight : ProblemSpec :=
  { bucket_weights := [("A", 1), ("B", -5)]
    bucket_horizons := [("A", 1), ("B", 1)]
    tenors := [(("A", "rates"), some 1)]
    bucket_currencies := [("A", "USD"), ("B", "USD")] }

/-- The allocation value produced for every variable of `specInherit`. -/
def qInherit : ℚ := 500000000000 / 2000000000001

/-- The allocation value produced for the single variable of `specScale`. -/
def qScale : ℚ := 1000000000000 / 1000000000001

/-- The allocation value produced for each variable of `specTwoCurrencies`. -/
def qTwoCur : ℚ := 500000000000 / 1000000000001

/-- Accumulate keyed rational contributions into a dictionary, the shape of
every `d[k] = d.get(k, 0.0) + v` loop in the source. -/
def accum {α : Type} [DecidableEq α] (l : List (α × ℚ)) (d : List (α × ℚ)) :
    List (α × ℚ) :=
  l.foldl (fun d p => addTo d p.1 p.2) d

/-- The pairs of `zip(variables, solution)` that survive the
`value <= _FLOAT_TOLERANCE` skip in the aggregation loop. -/
def keptPairs (vars : List (Bucket × Sleeve × ℚ)) (sol : List ℚ) :
    List ((Bucket × Sleeve × ℚ) × ℚ) :=
  (vars.zip sol).filter (fun p => decide (FLOAT_TOLERANCE < p.2))

/-- The realised duration-weighted exposure of one sleeve under a solution. -/
def sleeveExposure (vars : List (Bucket × Sleeve × ℚ)) (sol : List ℚ) (s : Sleeve) : ℚ :=
  ((vars.zip sol).map (fun p => if p.1.2.1 = s then p.1.2.2 * p.2 else 0)).sum

/-- The largest absolute sleeve exposure over the present sleeves. -/
def maxAbsExposure (vars : List (Bucket × Sleeve × ℚ)) (sol : List ℚ) : ℚ :=
  ((sleevesPresent vars).map (fun s => |sleeveExposure vars sol s|)).foldr max 0

/-- A bucket's total share in the returned result. -/
def bucketShare (res : RiskOptimizationResult) (b : Bucket) : ℚ :=
  alookupD res.by_bucket b 0

/-- Sum of solution entries at a list of variable indices. -/
def idxSum (idxs : List Nat) (sol : List ℚ) : ℚ :=
  (idxs.map (fun i => sol.getD i 0)).sum

/-- Squared Euclidean norm of a solution vector. -/
def normSq (v : List ℚ) : ℚ :=
  (v.map (fun x => x ^ 2)).sum

/-- The result returned for `specNegativeTenor` and `specNegativeWeight`:
bucket A fully in its single rates sleeve. -/
def resSingleA : RiskOptimizationResult :=
  { allocations := [(("A", "rates"), qScale)]
    by_bucket := [("A", qScale)]
    by_sleeve := [("rates", qScale)] }

/-- The result returned for `specInherit`: both buckets split evenly over
the two sleeves bucket B inherited from bucket A. -/
def resInherit : RiskOptimizationResult :=
  { allocations := [(("A", "rates"), qInherit), (("A", "tips"), qInherit),
                    (("B", "rates"), qInherit), (("B", "tips"), qInherit)]
    by_bucket := [("A", 2 * qInherit), ("B", 2 * qInherit)]
    by_sleeve := [("rates", 2 * qInherit), ("tips", 2 * qInherit)] }

/-- The result returned for `specScale`. -/
def resScale : RiskOptimizationResult :=
  { allocations := [(("USD", "rates"), qScale)]
    by_bucket := [("USD", qScale)]
    by_sleeve := [("rates", qScale)] }

/-- The result returned for `specTwoCurrencies`. -/
def resTwoCur : RiskOptimizationResult :=
  { allocations := [(("A", "rates"), qTwoCur), (("B", "rates"), qTwoCur)]
    by_bucket := [("A", qTwoCur), ("B", qTwoCur)]
    by_sleeve := [("rates", 2 * qTwoCur)] }

/-- Normalised weights for `specTwoCurrencies`. -/
def normTwoCur : List (Bucket × ℚ) := [("A", 1 / 2), ("B", 1 / 2)]

/-- Discovered sleeve tables for `specTwoCurrencies`. -/
def bstTwoCur : List (Bucket × List (Sleeve × ℚ)) :=
  [("A", [("rates", 1 / 2)]), ("B", [("rates", 1 / 2)])]

/-- Decision variables for `specTwoCurrencies`. -/
def varsTwoCur : List (Bucket × Sleeve × ℚ) :=
  [("A", "rates", 1 / 2), ("B", "rates", 1 / 2)]

/-- Currency-group table for `specTwoCurrencies`. -/
def cmapTwoCur : List (String × List Nat) := [("USD", [0]), ("EUR", [1])]

/-- The normalised weights of `specInherit`. -/
def normInherit : List (Bucket × ℚ) := [("A", 1 / 2), ("B", 1 / 2)]

/-- The per-bucket available sleeve maps of `specInherit`. -/
def bstInherit : List (Bucket × List (Sleeve × ℚ)) :=
  [("A", [("rates", 1), ("tips", 1)]), ("B", [("rates", 1), ("tips", 1)])]

/-- The discovered decision variables of `specInherit`. -/
def varsInherit : List (Bucket × Sleeve × ℚ) :=
  [("A", "rates", 1), ("A", "tips", 1), ("B", "rates", 1), ("B", "tips", 1)]

/-- An alternative feasible allocation for `specInherit`: everything in the
first bucket to rates and everything in the second to tips. -/
def yAlt : List ℚ := [1 / 2, 0, 0, 1 / 2]

/-- A yield vector (yields differing across variables) under which `yAlt`
strictly beats the returned allocation. -/
def cYield : List ℚ := [1, 0, 0, 0]

/-- The returned allocation read off as a vector in variable order. -/
def allocationVector (res : RiskOptimizationResult) : List ℚ :=
  res.allocations.map Prod.snd

/-- Everything a successful run certifies: the stage values it passed
through and the guards it verified before returning. -/
theorem run_ok_elim (spec : ProblemSpec) (res : RiskOptimizationResult)
    (h : run_risk_equal_optimization spec = Except.ok res) :
    ∃ normalised ordered bst vars solution,
      normalise_weights spec.bucket_weights = Except.ok normalised ∧
      sorted_buckets normalised spec.bucket_horizons = Except.ok ordered ∧
      discoverSleeves spec ordered [] = Except.ok bst ∧
      buildVariables bst = Except.ok vars ∧
      solve_with_multipliers ((allRowsOf spec ordered vars normalised).map Prod.fst)
        ((allRowsOf spec ordered vars normalised).map Prod.snd) vars.length =
        Except.ok solution ∧
      residualSumSq ((allRowsOf spec ordered vars normalised).map Prod.fst)
        ((allRowsOf spec ordered vars normalised).map Prod.snd) solution ≤ 1 / 10 ^ 16 ∧
      -(1 / 10 ^ 9) ≤ listMin solution ∧
      bucketTotalsOk ordered vars normalised (clampSolution solution) = true ∧
      exposuresOk vars (clampSolution solution) = true ∧
      res = assembleResult vars (clampSolution solution) ∧
      FLOAT_TOLERANCE < totalAllocated res := by
  simp only [run_risk_equal_optimization] at h
  split at h
  case h_1 => exact absurd h (by simp)
  case h_2 normalised hn =>
    split at h
    case h_1 => exact absurd h (by simp)
    case h_2 ordered ho =>
      split at h
      case isTrue => exact absurd h (by simp)
      case isFalse =>
        split at h
        case h_1 => exact absurd h (by simp)
        case h_2 bst hb =>
          split at h
          case h_1 => exact absurd h (by simp)
          case h_2 vars hv =>
            split at h
            case isTrue => exact absurd h (by simp)
            case isFalse =>
              split at h
              case isTrue => exact absurd h (by simp)
              case isFalse =>
                split at h
                case h_1 => exact absurd h (by simp)
                case h_2 solution hs =>
                  split at h
                  case isTrue => exact absurd h (by simp)
                  case isFalse hres =>
                    split at h
                    case isTrue => exact absurd h (by simp)
                    case isFalse hmin =>
                      split at h
                      case isTrue => exact absurd h (by simp)
                      case isFalse hbt =>
                        split at h
                        case isTrue => exact absurd h (by simp)
                        case isFalse hexp =>
                          split at h
                          case isTrue => exact absurd h (by simp)
                          case isFalse htot =>
                            have hr : assembleResult vars (clampSolution solution) = res := by
                              injection h
                            subst hr
                            refine ⟨normalised, ordered, bst, vars, solution,
                              hn, ho, hb, hv, hs, ?_, ?_, ?_, ?_, rfl, ?_⟩
                            · exact le_of_not_lt hres
                            · exact le_of_not_lt (fun hc => hmin hc)
                            · exact Bool.of_not_eq_false (fun hc => hbt (by simp [hc]))
                            · exact Bool.of_not_eq_false (fun hc => hexp (by simp [hc]))
                            · exact lt_of_not_le htot

/-- Updating a key and reading it back yields the written value. -/
theorem alookup_aset_self {α β : Type} [DecidableEq α] (d : List (α × β)) (k : α) (v : β) :
    alookup (aset d k v) k = some v := by
  induction d with
  | nil => simp [aset, alookup]
  | cons hd tl ih =>
      obtain ⟨k', v'⟩ := hd
      by_cases h : k' = k
      · simp [aset, alookup, h]
      · simp [aset, alookup, h, ih]

/-- Updating one key leaves every other key's binding unchanged. -/
theorem alookup_aset_ne {α β : Type} [DecidableEq α] (d : List (α × β)) (k k' : α) (v : β)
    (h : k' ≠ k) : alookup (aset d k v) k' = alookup d k' := by
  induction d with
  | nil => simp [aset, alookup, Ne.symm h]
  | cons hd tl ih =>
      obtain ⟨k₁, v₁⟩ := hd
      by_cases h₁ : k₁ = k
      · subst h₁
        simp [aset, alookup, Ne.symm h]
      · simp [aset, alookup, h₁, ih]

/-- Accumulating onto a key adds to its stored total. -/
theorem alookupD_addTo_self {α : Type} [DecidableEq α] (d : List (α × ℚ)) (k : α) (v : ℚ) :
    alookupD (addTo d k v) k 0 = alookupD d k 0 + v := by
  simp [addTo, alookupD, alookup_aset_self]

/-- Accumulating onto one key leaves other keys' totals unchanged. -/
theorem alookupD_addTo_ne {α : Type} [DecidableEq α] (d : List (α × ℚ)) (k k' : α) (v : ℚ)
    (h : k' ≠ k) : alookupD (addTo d k v) k' 0 = alookupD d k' 0 := by
  simp [addTo, alookupD, alookup_aset_ne _ _ _ _ h]

/-- Accumulating a contribution raises the dictionary's value total by it. -/
theorem snd_sum_addTo {α : Type} [DecidableEq α] (d : List (α × ℚ)) (k : α) (v : ℚ) :
    ((addTo d k v).map Prod.snd).sum = (d.map Prod.snd).sum + v := by
  induction d with
  | nil => simp [addTo, aset, alookupD, alookup]
  | cons hd tl ih =>
      obtain ⟨k₁, v₁⟩ := hd
      by_cases h₁ : k₁ = k
      · subst h₁
        simp [addTo, aset, alookupD, alookup]
        ring

      · have htl : addTo ((k₁, v₁) :: tl) k v = (k₁, v₁) :: addTo tl k v := by
          simp [addTo, aset, alookupD, alookup, h₁]
        rw [htl]
        simp only [List.map_cons, List.sum_cons, ih]
        ring

/-- Keys present after an update come from the update or the old keys. -/
theorem mem_fst_aset {α β : Type} [DecidableEq α] (d : List (α × β)) (k k' : α) (v : β)
    (h : k' ∈ (aset d k v).map Prod.fst) : k' = k ∨ k' ∈ d.map Prod.fst := by
  induction d with
  | nil =>
      simp only [aset, List.map_cons, List.map_nil, List.mem_cons,
        List.not_mem_nil, or_false] at h
      exact Or.inl h
  | cons hd tl ih =>
      obtain ⟨k₁, v₁⟩ := hd
      by_cases h₁ : k₁ = k
      · simp only [aset, if_pos h₁, List.map_cons, List.mem_cons] at h
        rcases h with hm | hm
        · exact Or.inl (hm.trans h₁)
        · exact Or.inr (by rw [List.map_cons]; exact List.mem_cons_of_mem _ hm)
      · simp only [aset, if_neg h₁, List.map_cons, List.mem_cons] at h
        rcases h with hm | hm
        · exact Or.inr (by rw [List.map_cons, hm]; exact List.mem_cons_self _ _)
        · rcases ih hm with h' | h'
          · exact Or.inl h'
          · exact Or.inr (by rw [List.map_cons]; exact List.mem_cons_of_mem _ h')

/-- A key's total after accumulation grows by exactly its contributions. -/
theorem alookupD_accum {α : Type} [DecidableEq α] (l : List (α × ℚ)) (d : List (α × ℚ))
    (k : α) :
    alookupD (accum l d) k 0 =
      alookupD d k 0 + ((l.filter (fun p => decide (p.1 = k))).map Prod.snd).sum := by
  induction l generalizing d with
  | nil => simp [accum]
  | cons hd tl ih =>
      obtain ⟨k₁, v₁⟩ := hd
      by_cases h₁ : k₁ = k
      · subst h₁
        simp only [accum, List.foldl_cons] at *
        rw [ih, alookupD_addTo_self]
        simp
        ring
      · simp only [accum, List.foldl_cons] at *
        rw [ih, alookupD_addTo_ne _ _ _ _ (Ne.symm h₁)]
        simp [h₁]

/-- Accumulation adds all contribution values to the dictionary's total. -/
theorem snd_sum_accum {α : Type} [DecidableEq α] (l : List (α × ℚ)) (d : List (α × ℚ)) :
    ((accum l d).map Prod.snd).sum = (d.map Prod.snd).sum + (l.map Prod.snd).sum := by
  induction l generalizing d with
  | nil => simp [accum]
  | cons hd tl ih =>
      simp only [accum, List.foldl_cons] at *
      rw [ih, snd_sum_addTo]
      simp only [List.map_cons, List.sum_cons]
      ring

/-- Keys of an accumulated dictionary come from the start or the contributions. -/
theorem mem_fst_accum {α : Type} [DecidableEq α] (l : List (α × ℚ)) (d : List (α × ℚ))
    (k : α) (h : k ∈ (accum l d).map Prod.fst) :
    k ∈ d.map Prod.fst ∨ k ∈ l.map Prod.fst := by
  induction l generalizing d with
  | nil => exact Or.inl h
  | cons hd tl ih =>
      simp only [accum, List.foldl_cons] at h
      rcases ih _ h with h' | h'
      · rcases mem_fst_aset _ _ _ _ h' with h'' | h''
        · exact Or.inr (by rw [List.map_cons, h'']; exact List.mem_cons_self _ _)
        · exact Or.inl h''
      · exact Or.inr (by rw [List.map_cons]; exact List.mem_cons_of_mem _ h')

/-- The written key is always among the keys after an update. -/
theorem mem_fst_aset_self {α β : Type} [DecidableEq α] (d : List (α × β)) (k : α) (v : β) :
    k ∈ (aset d k v).map Prod.fst := by
  induction d with
  | nil => simp [aset]
  | cons hd tl ih =>
      obtain ⟨k₁, v₁⟩ := hd
      by_cases h₁ : k₁ = k
      · simp [aset, h₁]
      · simp only [aset, if_neg h₁, List.map_cons]
        exact List.mem_cons_of_mem _ ih

/-- Old keys survive an update. -/
theorem mem_fst_aset_of_mem {α β : Type} [DecidableEq α] (d : List (α × β)) (k k' : α)
    (v : β) (h : k' ∈ d.map Prod.fst) : k' ∈ (aset d k v).map Prod.fst := by
  induction d with
  | nil => cases h
  | cons hd tl ih =>
      obtain ⟨k₁, v₁⟩ := hd
      simp only [List.map_cons, List.mem_cons] at h
      by_cases h₁ : k₁ = k
      · simp only [aset, if_pos h₁, List.map_cons, List.mem_cons]
        exact h.imp (fun hm => hm) (fun hm => hm)
      · simp only [aset, if_neg h₁, List.map_cons, List.mem_cons]
        exact h.imp (fun hm => hm) (fun hm => ih hm)

/-- Every contribution key is among the accumulated dictionary's keys. -/
theorem mem_fst_accum_of_mem {α : Type} [DecidableEq α] (l : List (α × ℚ))
    (d : List (α × ℚ)) (k : α) (h : k ∈ d.map Prod.fst ∨ k ∈ l.map Prod.fst) :
    k ∈ (accum l d).map Prod.fst := by
  induction l generalizing d with
  | nil => simpa using h.resolve_right (by simp)
  | cons hd tl ih =>
      simp only [accum, List.foldl_cons]
      refine ih _ ?_
      rcases h with h' | h'
      · exact Or.inl (mem_fst_aset_of_mem _ _ _ _ h')
      · simp only [List.map_cons, List.mem_cons] at h'
        rcases h' with h'' | h''
        · exact Or.inl (h'' ▸ mem_fst_aset_self _ _ _)
        · exact Or.inr h''

/-- An update keeps the key list duplicate-free. -/
theorem nodup_fst_aset {α β : Type} [DecidableEq α] (d : List (α × β)) (k : α) (v : β)
    (h : (d.map Prod.fst).Nodup) : ((aset d k v).map Prod.fst).Nodup := by
  induction d with
  | nil => simp [aset]
  | cons hd tl ih =>
      obtain ⟨k₁, v₁⟩ := hd
      simp only [List.map_cons, List.nodup_cons] at h
      by_cases h₁ : k₁ = k
      · simp only [aset, if_pos h₁, List.map_cons, List.nodup_cons]
        exact h
      · simp only [aset, if_neg h₁, List.map_cons, List.nodup_cons]
        refine ⟨fun hc => ?_, ih h.2⟩
        rcases mem_fst_aset _ _ _ _ hc with h' | h'
        · exact h₁ h'
        · exact h.1 h'

/-- Accumulation keeps the key list duplicate-free. -/
theorem nodup_fst_accum {α : Type} [DecidableEq α] (l : List (α × ℚ)) (d : List (α × ℚ))
    (h : (d.map Prod.fst).Nodup) : ((accum l d).map Prod.fst).Nodup := by
  induction l generalizing d with
  | nil => exact h
  | cons hd tl ih =>
      simp only [accum, List.foldl_cons]
      exact ih _ (nodup_fst_aset _ _ _ h)

/-- With duplicate-free keys, lookup finds any stored entry. -/
theorem alookup_eq_of_mem {α β : Type} [DecidableEq α] (d : List (α × β)) (k : α) (v : β)
    (hnd : (d.map Prod.fst).Nodup) (h : (k, v) ∈ d) : alookup d k = some v := by
  induction d with
  | nil => cases h
  | cons hd tl ih =>
      obtain ⟨k₁, v₁⟩ := hd
      simp only [List.map_cons, List.nodup_cons] at hnd
      rcases List.mem_cons.mp h with h' | h'
      · injection h' with hk hv
        simp [alookup, hk, hv]
      · have hne : k₁ ≠ k := by
          rintro rfl
          exact hnd.1 (by simpa using List.mem_map_of_mem Prod.fst h')
        simp [alookup, hne, ih hnd.2 h']

/-- Lookup results are stored entries. -/
theorem mem_of_alookup {α β : Type} [DecidableEq α] (d : List (α × β)) (k : α) (v : β)
    (h : alookup d k = some v) : (k, v) ∈ d := by
  induction d with
  | nil => cases h
  | cons hd tl ih =>
      obtain ⟨k₁, v₁⟩ := hd
      by_cases h₁ : k₁ = k
      · simp only [alookup, if_pos h₁, Option.some.injEq] at h
        subst h₁
        subst h
        exact List.mem_cons_self _ _
      · simp only [alookup, if_neg h₁] at h
        exact List.mem_cons_of_mem _ (ih h)

/-- Stable insertion permutes to consing. -/
theorem perm_insertBy {α : Type} (lt : α → α → Bool) (x : α) (l : List α) :
    (insertBy lt x l).Perm (x :: l) := by
  induction l with
  | nil => exact List.Perm.refl _
  | cons y ys ih =>
      by_cases h : lt y x
      · simp only [insertBy, if_pos h]
        exact ((ih.cons y).trans (List.Perm.swap x y ys))
      · simp only [insertBy, if_neg h]
        exact List.Perm.refl _

/-- The modelled Python sort permutes its input. -/
theorem perm_sortBy {α : Type} (lt : α → α → Bool) (l : List α) :
    (sortBy lt l).Perm l := by
  induction l with
  | nil => exact List.Perm.refl _
  | cons x xs ih =>
      exact (perm_insertBy lt x (sortBy lt xs)).trans (ih.cons x)

/-- Membership is invariant under the modelled sort. -/
theorem mem_sortBy {α : Type} (lt : α → α → Bool) (l : List α) (a : α) :
    a ∈ sortBy lt l ↔ a ∈ l :=
  (perm_sortBy lt l).mem_iff

/-- Every member is below the running maximum of a fold. -/
theorem le_foldr_max (l : List ℚ) (b : ℚ) (a : ℚ) (h : a ∈ l) : a ≤ l.foldr max b := by
  induction l with
  | nil => cases h
  | cons x xs ih =>
      rcases List.mem_cons.mp h with h' | h'
      · exact h' ▸ le_max_left _ _
      · exact le_trans (ih h') (le_max_right _ _)

/-- The seed is below the running maximum of a fold. -/
theorem seed_le_foldr_max (l : List ℚ) (b : ℚ) : b ≤ l.foldr max b := by
  induction l with
  | nil => exact le_refl _
  | cons x xs ih => exact le_trans ih (le_max_right _ _)

/-- The aggregation loop's bucket dictionary is the accumulation of the kept
pairs' bucket contributions. -/
theorem assembleFold_by_bucket (l : List ((Bucket × Sleeve × ℚ) × ℚ))
    (r : RiskOptimizationResult) :
    (l.foldl assembleStep r).by_bucket =
      accum ((l.filter (fun p => decide (FLOAT_TOLERANCE < p.2))).map
        (fun p => (p.1.1, p.2))) r.by_bucket := by
  induction l generalizing r with
  | nil => simp [accum]
  | cons hd tl ih =>
      by_cases h : hd.2 ≤ FLOAT_TOLERANCE
      · have h' : ¬ FLOAT_TOLERANCE < hd.2 := not_lt.mpr h
        simp [assembleStep, h, h', ih]
      · have h' : FLOAT_TOLERANCE < hd.2 := lt_of_not_le h
        simp only [List.foldl_cons, assembleStep, if_neg h, List.filter_cons,
          decide_eq_true_eq, h', if_pos h', List.map_cons]
        rw [ih]
        simp [accum]

/-- Every key recorded in `allocations` comes from a kept variable pair. -/
theorem assembleFold_allocations_key (l : List ((Bucket × Sleeve × ℚ) × ℚ))
    (r : RiskOptimizationResult) (k : Bucket × Sleeve)
    (h : k ∈ ((l.foldl assembleStep r).allocations).map Prod.fst) :
    k ∈ (r.allocations.map Prod.fst) ∨
      ∃ p ∈ l, FLOAT_TOLERANCE < p.2 ∧ (p.1.1, p.1.2.1) = k := by
  induction l generalizing r with
  | nil => exact Or.inl h
  | cons hd tl ih =>
      simp only [List.foldl_cons] at h
      rcases ih _ h with h' | h'
      · by_cases hk : hd.2 ≤ FLOAT_TOLERANCE
        · simp only [assembleStep, if_pos hk] at h'
          exact Or.inl h'
        · simp only [assembleStep, if_neg hk] at h'
          rcases mem_fst_aset _ _ _ _ h' with h'' | h''
          · exact Or.inr ⟨hd, List.mem_cons_self _ _, lt_of_not_le hk, h''.symm⟩
          · exact Or.inl h''
      · obtain ⟨p, hp, hkeep, hkey⟩ := h'
        exact Or.inr ⟨p, List.mem_cons_of_mem _ hp, hkeep, hkey⟩

/-- The exposure dictionary is the accumulation of per-variable exposure
contributions. -/
theorem exposureDict_eq_accum (vars : List (Bucket × Sleeve × ℚ)) (sol : List ℚ) :
    exposureDict vars sol =
      accum ((vars.zip sol).map (fun p => (p.1.2.1, p.1.2.2 * p.2))) [] := by
  rw [exposureDict, accum, List.foldl_map]

/-- Filtering a keyed list to one key and summing equals the guarded sum. -/
theorem sum_filter_key {κ : Type} [DecidableEq κ] (l : List (κ × ℚ)) (k : κ) :
    ((l.filter (fun p => decide (p.1 = k))).map Prod.snd).sum =
      (l.map (fun p => if p.1 = k then p.2 else 0)).sum := by
  induction l with
  | nil => simp
  | cons hd tl ih =>
      by_cases h : hd.1 = k
      · simp [h, ih]
      · simp [h, ih]

/-- A successful multiplier solve returns a vector of the requested length. -/
theorem solve_with_multipliers_length (rows : List (List ℚ)) (rhs : List ℚ) (n : Nat)
    (sol : List ℚ) (h : solve_with_multipliers rows rhs n = Except.ok sol) :
    sol.length = n := by
  unfold solve_with_multipliers at h
  split at h
  · exact absurd h (by simp)
  · injection h with h'
    subst h'
    simp [recoverSolution]

/-- What a successful weight normalisation certifies: the positive weights
have a positive total, and each is divided by that total. -/
theorem normalise_ok_elim (values : List (Bucket × ℚ)) (norm : List (Bucket × ℚ))
    (h : normalise_weights values = Except.ok norm) :
    0 < ((values.filter (fun p => decide (0 < p.2))).map Prod.snd).sum ∧
    norm = (values.filter (fun p => decide (0 < p.2))).map
      (fun p => (p.1, p.2 / ((values.filter (fun p => decide (0 < p.2))).map Prod.snd).sum)) := by
  simp only [normalise_weights] at h
  split at h
  case isTrue => exact absurd h (by simp)
  case isFalse =>
    split at h
    case isTrue => exact absurd h (by simp)
    case isFalse htot =>
      injection h with h'
      exact ⟨lt_of_not_le htot, h'.symm⟩

/-- What a successful bucket sort certifies: the order is the sorted weight
keys and every listed bucket has a horizon. -/
theorem sorted_buckets_ok_elim (w horizons : List (Bucket × ℚ)) (l : List Bucket)
    (h : sorted_buckets w horizons = Except.ok l) :
    l = sortBy (bucketKeyLt horizons) (w.map Prod.fst) ∧
    ∀ b ∈ l, (alookup horizons b).isSome := by
  simp only [sorted_buckets] at h
  split at h
  case isTrue => exact absurd h (by simp)
  case isFalse hmiss =>
    injection h with h'
    subst h'
    refine ⟨rfl, fun b hb => ?_⟩
    have hbk : b ∈ w.map Prod.fst := (mem_sortBy _ _ _).mp hb
    by_contra hnone
    have hmem : b ∈ (w.map Prod.fst).filter (fun b => (alookup horizons b).isNone) := by
      refine List.mem_filter.mpr ⟨hbk, ?_⟩
      cases hx : alookup horizons b with
      | none => simp
      | some v => exact absurd (by simp [hx]) hnone
    have hempty : ((w.map Prod.fst).filter (fun b => (alookup horizons b).isNone)) = [] :=
      List.isEmpty_iff.mp (not_not.mp hmiss)
    rw [hempty] at hmem
    cases hmem

/-- Every bucket processed by a successful discovery pass has a successful
`_tenors_for_bucket` call whose outcome the pass records. -/
theorem discover_ok_mem (spec : ProblemSpec) (buckets : List Bucket)
    (prev : List (Sleeve × ℚ)) (bst : List (Bucket × List (Sleeve × ℚ)))
    (h : discoverSleeves spec buckets prev = Except.ok bst) (b : Bucket)
    (hb : b ∈ buckets) :
    ∃ prev' sleeves, tenors_for_bucket b spec.bucket_horizons spec.tenors prev' =
      Except.ok sleeves ∧ (b, sleeves) ∈ bst := by
  induction buckets generalizing prev bst with
  | nil => cases hb
  | cons hd tl ih =>
      simp only [discoverSleeves] at h
      split at h
      case h_1 => exact absurd h (by simp)
      case h_2 sleeves hsl =>
        split at h
        case isTrue => exact absurd h (by simp)
        case isFalse =>
          split at h
          case h_1 => exact absurd h (by simp)
          case h_2 more hmore =>
            injection h with h'
            subst h'
            rcases List.mem_cons.mp hb with hb' | hb'
            · subst hb'
              exact ⟨prev, sleeves, hsl, List.mem_cons_self _ _⟩
            · obtain ⟨p', s', hok, hmem⟩ := ih _ _ hmore hb'
              exact ⟨p', s', hok, List.mem_cons_of_mem _ hmem⟩

/-- Entries that the tenor loop skips leave the available set unchanged. -/
theorem tenorFold_skip_all (b : Bucket) (hz : ℚ)
    (entries : List ((Bucket × Sleeve) × Option ℚ)) (av : List (Sleeve × ℚ))
    (h : ∀ e ∈ entries, e.1.1 ≠ b ∨ e.2 = none ∨ ∃ t, e.2 = some t ∧ t ≤ 0) :
    tenorFold b hz entries av = Except.ok av := by
  induction entries generalizing av with
  | nil => rfl
  | cons hd tl ih =>
      have hstep : tenorStep b hz av hd = Except.ok av := by
        rcases h hd (List.mem_cons_self _ _) with h' | h' | ⟨t, ht, htle⟩
        · simp [tenorStep, h']
        · by_cases hb : hd.1.1 ≠ b
          · simp [tenorStep, hb]
          · simp [tenorStep, hb, h']
        · by_cases hb : hd.1.1 ≠ b
          · simp [tenorStep, hb]
          · simp [tenorStep, hb, ht, htle]
      simp only [tenorFold, hstep]
      exact ih _ (fun e he => h e (List.mem_cons_of_mem _ he))

/-- A positive tenor entry exceeding the horizon always aborts the loop. -/
theorem tenorFold_error_of_bad (b : Bucket) (s : Sleeve) (hz t : ℚ)
    (entries : List ((Bucket × Sleeve) × Option ℚ))
    (hmem : ((b, s), some t) ∈ entries) (htpos : 0 < t)
    (hexc : FLOAT_TOLERANCE < t - hz) (av : List (Sleeve × ℚ)) :
    ∃ e, tenorFold b hz entries av = Except.error e := by
  induction entries generalizing av with
  | nil => cases hmem
  | cons hd tl ih =>
      rcases List.mem_cons.mp hmem with hbad | htl
      · refine ⟨.tenorExceedsHorizon b, ?_⟩
        have hstep : tenorStep b hz av hd = Except.error (.tenorExceedsHorizon b) := by
          subst hbad
          simp [tenorStep, not_le.mpr htpos, hexc]
        simp [tenorFold, hstep]
      · cases hstep : tenorStep b hz av hd with
        | error e => exact ⟨e, by simp [tenorFold, hstep]⟩
        | ok av' =>
            obtain ⟨e, he⟩ := ih htl av'
            exact ⟨e, by simp [tenorFold, hstep, he]⟩

/-- C10: for every ProblemSpec in which some positively weighted bucket has a
positive tenor entry strictly exceeding that bucket's horizon by more than the
float tolerance 1e-9, `run_risk_equal_optimization` raises an error instead of
solving — tenors not exceeding the bucket horizon is a precondition at the
public interface. -/
theorem c10_tenor_exceeding_horizon_errors (spec : ProblemSpec) (b : Bucket) (s : Sleeve)
    (w hz t : ℚ) (hw : (b, w) ∈ spec.bucket_weights) (hwpos : 0 < w)
    (hh : alookup spec.bucket_horizons b = some hz)
    (ht : ((b, s), some t) ∈ spec.tenors) (htpos : 0 < t)
    (hexc : FLOAT_TOLERANCE < t - hz) :
    ∃ e, run_risk_equal_optimization spec = Except.error e := by
  cases hrun : run_risk_equal_optimization spec with
  | error e => exact ⟨e, rfl⟩
  | ok res =>
      exfalso
      obtain ⟨norm, ordered, bst, vars, sol, hn, hs, hd, _, _, _, _, _, _, _, _⟩ :=
        run_ok_elim spec res hrun
      obtain ⟨_, hnorm⟩ := normalise_ok_elim _ _ hn
      have hbnorm : b ∈ norm.map Prod.fst := by
        rw [hnorm, List.map_map]
        have hmem : b ∈ (spec.bucket_weights.filter (fun p => decide (0 < p.2))).map Prod.fst :=
          List.mem_map_of_mem Prod.fst (List.mem_filter.mpr ⟨hw, by simpa using hwpos⟩)
        simpa using hmem
      obtain ⟨hord, _⟩ := sorted_buckets_ok_elim _ _ _ hs
      have hbord : b ∈ ordered := by
        rw [hord]
        exact (mem_sortBy _ _ _).mpr hbnorm
      obtain ⟨prev', sleeves, hok, _⟩ := discover_ok_mem spec ordered [] bst hd b hbord
      obtain ⟨e, he⟩ := tenorFold_error_of_bad b s hz t spec.tenors ht htpos hexc prev'
      simp only [tenors_for_bucket, hh, he] at hok
      exact Except.noConfusion hok

/-- C10 witness: the one-bucket spec with tenor 2 over horizon 1 errors. -/
theorem c10_tenor_exceeding_horizon_errors_witness :
    ∃ e, run_risk_equal_optimization specTenorTooLong = Except.error e :=
  c10_tenor_exceeding_horizon_errors specTenorTooLong "A" "rates" 1 1 2
    (by decide) (by norm_num) (by decide) (by decide) (by norm_num) (by decide)

/-- C10 counterexample: bucket B holds a positive tenor entry (5) exceeding
its horizon (1) by far more than the float tolerance, yet B's target weight
is zero, so normalisation drops B, discovery never reads B's entries and the
run succeeds — the unqualified claim fails for non-positively-weighted
buckets. -/
theorem c10_zero_weight_bad_tenor_succeeds_counterexample :
    ((("B", "rates"), some (5 : ℚ)) ∈ specZeroWeightBadTenor.tenors ∧
      alookup specZeroWeightBadTenor.bucket_horizons "B" = some 1 ∧
      alookupD specZeroWeightBadTenor.bucket_weights "B" 1 = 0 ∧
      FLOAT_TOLERANCE < (5 : ℚ) - 1) ∧
    run_risk_equal_optimization specZeroWeightBadTenor = Except.ok resSingleA :=
  ⟨⟨by decide, by rfl, by rfl, by norm_num [FLOAT_TOLERANCE]⟩, rfl⟩

/-- A normalisation failure is the run's failure. -/
theorem run_error_of_normalise (spec : ProblemSpec) (e : OptError)
    (h : normalise_weights spec.bucket_weights = Except.error e) :
    run_risk_equal_optimization spec = Except.error e := by
  simp [run_risk_equal_optimization, h]

/-- A discovery failure after successful normalisation and ordering is the
run's failure. -/
theorem run_error_of_discover (spec : ProblemSpec) (norm : List (Bucket × ℚ))
    (b : Bucket) (rest : List Bucket) (e : OptError)
    (hn : normalise_weights spec.bucket_weights = Except.ok norm)
    (hs : sorted_buckets norm spec.bucket_horizons = Except.ok (b :: rest))
    (hd : discoverSleeves spec (b :: rest) [] = Except.error e) :
    run_risk_equal_optimization spec = Except.error e := by
  simp [run_risk_equal_optimization, hn, hs, hd]

/-- Keys already recorded in `allocations` survive the aggregation loop. -/
theorem assembleFold_key_mono (l : List ((Bucket × Sleeve × ℚ) × ℚ))
    (r : RiskOptimizationResult) (k : Bucket × Sleeve)
    (h : k ∈ r.allocations.map Prod.fst) :
    k ∈ ((l.foldl assembleStep r).allocations).map Prod.fst := by
  induction l generalizing r with
  | nil => exact h
  | cons hd tl ih =>
      simp only [List.foldl_cons]
      refine ih _ ?_
      by_cases hk : hd.2 ≤ FLOAT_TOLERANCE
      · simpa [assembleStep, hk] using h
      · simpa [assembleStep, hk] using mem_fst_aset_of_mem _ _ _ _ h

/-- Every kept pair's key is recorded in `allocations`. -/
theorem assembleFold_key_of_kept (l : List ((Bucket × Sleeve × ℚ) × ℚ))
    (r : RiskOptimizationResult) (p : (Bucket × Sleeve × ℚ) × ℚ)
    (hp : p ∈ l) (hkeep : FLOAT_TOLERANCE < p.2) :
    (p.1.1, p.1.2.1) ∈ ((l.foldl assembleStep r).allocations).map Prod.fst := by
  induction l generalizing r with
  | nil => cases hp
  | cons hd tl ih =>
      simp only [List.foldl_cons]
      rcases List.mem_cons.mp hp with hp' | hp'
      · subst hp'
        refine assembleFold_key_mono _ _ _ ?_
        simp only [assembleStep, if_neg (not_le.mpr hkeep)]
        exact mem_fst_aset_self _ _ _
      · exact ih _ hp'

/-- The total allocation is exactly the sum of the kept solution values. -/
theorem totalAllocated_eq_kept_sum (vars : List (Bucket × Sleeve × ℚ)) (sol : List ℚ) :
    totalAllocated (assembleResult vars sol) = ((keptPairs vars sol).map Prod.snd).sum := by
  unfold totalAllocated assembleResult
  rw [assembleFold_by_bucket]
  rw [snd_sum_accum]
  simp [keptPairs, List.map_map]
  rfl

/-- C5 amended core: when the earliest bucket in weight order has no usable
tenor entry of its own (every entry for it is absent or non-positive), the
run fails with the per-bucket no-sleeves error — the inherited set is empty
only for the first bucket. -/
theorem c5_first_bucket_without_sleeves_errors (spec : ProblemSpec)
    (norm : List (Bucket × ℚ)) (b : Bucket) (rest : List Bucket)
    (hn : normalise_weights spec.bucket_weights = Except.ok norm)
    (hs : sorted_buckets norm spec.bucket_horizons = Except.ok (b :: rest))
    (hbad : ∀ e ∈ spec.tenors, e.1.1 ≠ b ∨ e.2 = none ∨ ∃ t, e.2 = some t ∧ t ≤ 0) :
    run_risk_equal_optimization spec = Except.error (OptError.noSleevesForBucket b) := by
  obtain ⟨_, hhz⟩ := sorted_buckets_ok_elim _ _ _ hs
  obtain ⟨hz, hhz'⟩ := Option.isSome_iff_exists.mp (hhz b (List.mem_cons_self _ _))
  have hfold : tenorFold b hz spec.tenors [] = Except.ok [] :=
    tenorFold_skip_all b hz spec.tenors [] hbad
  have htfb : tenors_for_bucket b spec.bucket_horizons spec.tenors [] =
      Except.error (OptError.noSleevesForBucket b) := by
    simp [tenors_for_bucket, hhz', hfold]
  have hdisc : discoverSleeves spec (b :: rest) [] =
      Except.error (OptError.noSleevesForBucket b) := by
    simp [discoverSleeves, htfb]
  exact run_error_of_discover spec norm b rest _ hn hs hdisc

/-- C5 amended witness: a positively weighted bucket with no tenor data at
all makes the run fail with the no-sleeves error. -/
theorem c5_first_bucket_without_sleeves_errors_witness :
    run_risk_equal_optimization specEmptyTenors =
      Except.error (OptError.noSleevesForBucket "A") :=
  c5_first_bucket_without_sleeves_errors specEmptyTenors [("A", 1)] "A" []
    (by rfl) (by rfl) (by decide)

/-- C5 counterexample: in `specInherit`, bucket B has a positive target
weight and zero discovered variables of its own (no tenor entry names B),
yet the run succeeds and allocates to B through inherited sleeves instead
of raising. -/
theorem c5_zero_own_variables_succeeds_counterexample :
    run_risk_equal_optimization specInherit = Except.ok resInherit ∧
    (∀ p ∈ specInherit.tenors, p.1.1 ≠ "B") ∧
    alookupD specInherit.bucket_weights "B" 0 = 50 ∧
    alookup resInherit.by_bucket "B" = some (2 * qInherit) :=
  ⟨rfl, by decide, by rfl, by rfl⟩

/-- C6 counterexample: with no investable data at all, the run fails during
per-bucket discovery with the no-sleeves error, not with the dedicated
no-investable-sleeves error the claim names (that check is unreachable). -/
theorem c6_empty_discovery_error_counterexample :
    run_risk_equal_optimization specEmptyTenors =
      Except.error (OptError.noSleevesForBucket "A") ∧
    OptError.noSleevesForBucket "A" ≠ OptError.noInvestableSleeves :=
  ⟨rfl, by decide⟩

/-- C6 amended: a successful run never returns an empty or zero allocation
(the total exceeds the float tolerance and `allocations` is non-empty), and
inputs with no investable instruments fail already in per-bucket discovery. -/
theorem c6_no_silent_zero_allocation :
    (∀ (spec : ProblemSpec) (res : RiskOptimizationResult),
      run_risk_equal_optimization spec = Except.ok res →
        FLOAT_TOLERANCE < totalAllocated res ∧ res.allocations ≠ []) ∧
    run_risk_equal_optimization specEmptyTenors =
      Except.error (OptError.noSleevesForBucket "A") := by
  refine ⟨fun spec res hrun => ?_, rfl⟩
  obtain ⟨norm, ordered, bst, vars, sol, _, _, _, _, _, _, _, _, _, hres, htot⟩ :=
    run_ok_elim spec res hrun
  refine ⟨htot, ?_⟩
  subst hres
  have hsum : FLOAT_TOLERANCE <
      ((keptPairs vars (clampSolution sol)).map Prod.snd).sum := by
    rw [← totalAllocated_eq_kept_sum]
    exact htot
  have hkept : keptPairs vars (clampSolution sol) ≠ [] := by
    intro hc
    rw [hc] at hsum
    simp [FLOAT_TOLERANCE] at hsum
    exact absurd hsum (by norm_num)
  obtain ⟨p, hp⟩ := List.exists_mem_of_ne_nil _ hkept
  have hkeep : FLOAT_TOLERANCE < p.2 := by
    have := List.of_mem_filter (by exact hp : p ∈ keptPairs vars (clampSolution sol))
    simpa using this
  have hzip : p ∈ vars.zip (clampSolution sol) := List.mem_of_mem_filter hp
  have hkey := assembleFold_key_of_kept (vars.zip (clampSolution sol))
    ⟨[], [], []⟩ p hzip hkeep
  intro hc
  unfold assembleResult at hc
  rw [hc] at hkey
  cases hkey

/-- C7 counterexample: a non-positive duration for a sleeve that would
otherwise be usable does not raise; the entry is silently excluded and the
run succeeds on the remaining data. -/
theorem c7_nonpositive_duration_not_rejected_counterexample :
    run_risk_equal_optimization specNegativeTenor = Except.ok resSingleA ∧
    ((("A", "tips"), some (-1)) ∈ specNegativeTenor.tenors) ∧
    alookup resSingleA.allocations ("A", "tips") = none :=
  ⟨rfl, by decide, rfl⟩

/-- C7 amended: non-positive tenor entries and non-positive bucket weights
are silently excluded rather than rejected; only a weights map with no
positive entry at all (in particular an empty one) raises, with the
no-positive-weight error, before any solving. -/
theorem c7_invalid_inputs_silently_excluded :
    (∀ spec : ProblemSpec, (∀ p ∈ spec.bucket_weights, p.2 ≤ 0) →
      run_risk_equal_optimization spec = Except.error OptError.noPositiveWeight) ∧
    (run_risk_equal_optimization specNegativeTenor = Except.ok resSingleA ∧
      alookup resSingleA.allocations ("A", "tips") = none) ∧
    (run_risk_equal_optimization specNegativeWeight = Except.ok resSingleA ∧
      alookupD specNegativeWeight.bucket_weights "B" 0 = -5 ∧
      alookup resSingleA.by_bucket "B" = none) := by
  refine ⟨fun spec hnp => ?_, ⟨rfl, rfl⟩, ⟨rfl, rfl, rfl⟩⟩
  have hfil : spec.bucket_weights.filter (fun p => decide (0 < p.2)) = [] := by
    rw [List.filter_eq_nil_iff]
    intro p hp
    simpa using not_lt.mpr (hnp p hp)
  have hnorm : normalise_weights spec.bucket_weights =
      Except.error OptError.noPositiveWeight := by
    simp [normalise_weights, hfil]
  exact run_error_of_normalise spec _ hnorm

/-- A successful per-bucket variable pass maps each stored sleeve to a
variable triple. -/
theorem varsForBucket_ok_eq (b : Bucket) (l : List (Sleeve × ℚ))
    (vs : List (Bucket × Sleeve × ℚ)) (h : varsForBucket b l = Except.ok vs) :
    vs = l.map (fun p => (b, p.1, p.2)) := by
  induction l generalizing vs with
  | nil =>
      simp only [varsForBucket] at h
      injection h with h'
      simp [h'.symm]
  | cons hd tl ih =>
      obtain ⟨s, t⟩ := hd
      simp only [varsForBucket] at h
      split at h
      case isTrue => exact absurd h (by simp)
      case isFalse =>
        split at h
        case h_1 => exact absurd h (by simp)
        case h_2 more hmore =>
          injection h with h'
          simp [h'.symm, ih _ hmore]

/-- A successful variable build is the concatenation of each bucket's sorted
sleeve map turned into triples. -/
theorem buildVariables_ok_eq (bst : List (Bucket × List (Sleeve × ℚ)))
    (vars : List (Bucket × Sleeve × ℚ)) (h : buildVariables bst = Except.ok vars) :
    vars = bst.flatMap (fun p => (sortBy pairLt p.2).map (fun q => (p.1, q.1, q.2))) := by
  induction bst generalizing vars with
  | nil =>
      simp only [buildVariables] at h
      injection h with h'
      simp [h'.symm]
  | cons hd tl ih =>
      obtain ⟨b, sleeves⟩ := hd
      simp only [buildVariables] at h
      split at h
      case h_1 => exact absurd h (by simp)
      case h_2 vs hvs =>
        split at h
        case h_1 => exact absurd h (by simp)
        case h_2 more hmore =>
          injection h with h'
          rw [← h', varsForBucket_ok_eq _ _ _ hvs, ih _ hmore]
          simp

/-- C4 amended: a `(bucket, sleeve)` pair becomes a decision variable exactly
when the sleeve is available to the bucket after horizon-order inheritance
(recorded in the discovery pass output), and every key of `allocations` is a
discovered variable — pairs without an available sleeve never appear. -/
theorem c4_variables_follow_availability (spec : ProblemSpec)
    (res : RiskOptimizationResult) (bst : List (Bucket × List (Sleeve × ℚ)))
    (vars : List (Bucket × Sleeve × ℚ)) (ordered : List Bucket)
    (norm : List (Bucket × ℚ))
    (hn : normalise_weights spec.bucket_weights = Except.ok norm)
    (hs : sorted_buckets norm spec.bucket_horizons = Except.ok ordered)
    (hd : discoverSleeves spec ordered [] = Except.ok bst)
    (hv : buildVariables bst = Except.ok vars)
    (hrun : run_risk_equal_optimization spec = Except.ok res) :
    (∀ b s t, (b, s, t) ∈ vars ↔ ∃ sleeves, (b, sleeves) ∈ bst ∧ (s, t) ∈ sleeves) ∧
    (∀ b s, (b, s) ∈ res.allocations.map Prod.fst → ∃ t, (b, s, t) ∈ vars) := by
  have hveq := buildVariables_ok_eq _ _ hv
  constructor
  · intro b s t
    rw [hveq]
    constructor
    · intro hmem
      obtain ⟨p, hp, hmem'⟩ := List.mem_flatMap.mp hmem
      obtain ⟨q, hq, hqe⟩ := List.mem_map.mp hmem'
      have hb : p.1 = b := congrArg Prod.fst hqe
      have hst : (q.1, q.2) = (s, t) := congrArg Prod.snd hqe
      have hq' : q = (s, t) := by
        obtain ⟨q₁, q₂⟩ := q
        simpa using hst
      refine ⟨p.2, ?_, ?_⟩
      · rw [← hb]
        simpa using hp
      · rw [← hq']
        exact (mem_sortBy _ _ _).mp hq
    · rintro ⟨sleeves, hsl, hmem⟩
      refine List.mem_flatMap.mpr ⟨(b, sleeves), hsl, ?_⟩
      exact List.mem_map.mpr ⟨(s, t), (mem_sortBy _ _ _).mpr hmem, rfl⟩
  · intro b s hkey
    obtain ⟨norm', ordered', bst', vars', sol, hn', hs', hd', hv', _, _, _, _, _, hres, _⟩ :=
      run_ok_elim spec res hrun
    obtain rfl : norm' = norm := by
      rw [hn'] at hn
      exact (Except.ok.injEq _ _).mp hn
    obtain rfl : ordered' = ordered := by
      rw [hs'] at hs
      exact (Except.ok.injEq _ _).mp hs
    obtain rfl : bst' = bst := by
      rw [hd'] at hd
      exact (Except.ok.injEq _ _).mp hd
    obtain rfl : vars' = vars := by
      rw [hv'] at hv
      exact (Except.ok.injEq _ _).mp hv
    subst hres
    unfold assembleResult at hkey
    rcases assembleFold_allocations_key _ _ _ hkey with hk | hk
    · cases hk
    · obtain ⟨p, hp, _, hkeq⟩ := hk
      have hpv := (List.of_mem_zip hp).1
      refine ⟨p.1.2.2, ?_⟩
      have hb : p.1.1 = b := congrArg Prod.fst hkeq
      have hsx : p.1.2.1 = s := congrArg Prod.snd hkeq
      rw [← hb, ← hsx]
      simpa using hpv

/-- C4 counterexample: `(B, rates)` appears in `allocations` for
`specInherit` although no tenor entry of bucket B exists at all — the pair's
own data is absent yet it is a decision variable via inheritance. -/
theorem c4_missing_own_data_pair_allocated_counterexample :
    run_risk_equal_optimization specInherit = Except.ok resInherit ∧
    (∀ p ∈ specInherit.tenors, p.1 ≠ ("B", "rates")) ∧
    alookup resInherit.allocations ("B", "rates") = some qInherit :=
  ⟨rfl, by decide, rfl⟩

/-- C4 witness: the characterisation evaluated on `specInherit`. -/
theorem c4_variables_follow_availability_witness :
    (∀ b s t, (b, s, t) ∈
        ([("A", "rates", (1 : ℚ)), ("A", "tips", 1), ("B", "rates", 1), ("B", "tips", 1)] :
          List (Bucket × Sleeve × ℚ)) ↔
      ∃ sleeves, (b, sleeves) ∈
          ([("A", [("rates", (1 : ℚ)), ("tips", 1)]), ("B", [("rates", 1), ("tips", 1)])] :
            List (Bucket × List (Sleeve × ℚ))) ∧ (s, t) ∈ sleeves) ∧
    (∀ b s, (b, s) ∈ resInherit.allocations.map Prod.fst →
      ∃ t, (b, s, t) ∈
        ([("A", "rates", (1 : ℚ)), ("A", "tips", 1), ("B", "rates", 1), ("B", "tips", 1)] :
          List (Bucket × Sleeve × ℚ))) :=
  c4_variables_follow_availability specInherit resInherit
    [("A", [("rates", 1), ("tips", 1)]), ("B", [("rates", 1), ("tips", 1)])]
    [("A", "rates", 1), ("A", "tips", 1), ("B", "rates", 1), ("B", "tips", 1)]
    ["A", "B"] [("A", 1 / 2), ("B", 1 / 2)] (by rfl) (by rfl) (by rfl) (by rfl) (by rfl)

/-- A successful tenor step never loses an available sleeve. -/
theorem tenorStep_ok_keys (b : Bucket) (hz : ℚ) (av : List (Sleeve × ℚ))
    (e : (Bucket × Sleeve) × Option ℚ) (av' : List (Sleeve × ℚ))
    (h : tenorStep b hz av e = Except.ok av') (s : Sleeve)
    (hs : s ∈ av.map Prod.fst) : s ∈ av'.map Prod.fst := by
  unfold tenorStep at h
  split at h
  · injection h with h'
    exact h' ▸ hs
  · split at h
    case h_1 =>
      injection h with h'
      exact h' ▸ hs
    case h_2 t =>
      split at h
      case isTrue =>
        injection h with h'
        exact h' ▸ hs
      case isFalse =>
        split at h
        case isTrue => exact absurd h (by simp)
        case isFalse =>
          split at h
          case h_1 =>
            injection h with h'
            exact h' ▸ mem_fst_aset_of_mem _ _ _ _ hs
          case h_2 =>
            injection h with h'
            exact h' ▸ mem_fst_aset_of_mem _ _ _ _ hs

/-- A successful tenor step leaves the bindings of other sleeves alone when
its entry is not keyed by the given `(bucket, sleeve)` pair. -/
theorem tenorStep_ok_other_key (b : Bucket) (s : Sleeve) (hz : ℚ)
    (av : List (Sleeve × ℚ)) (e : (Bucket × Sleeve) × Option ℚ) (av' : List (Sleeve × ℚ))
    (h : tenorStep b hz av e = Except.ok av') (hne : e.1 ≠ (b, s)) :
    alookup av' s = alookup av s := by
  unfold tenorStep at h
  split at h
  · injection h with h'
    rw [h']
  · next hbeq =>
    have hb : e.1.1 = b := not_ne_iff.mp hbeq
    have hsne : e.1.2 ≠ s := by
      intro hc
      exact hne (by rw [← hb, ← hc])
    split at h
    case h_1 =>
      injection h with h'
      rw [h']
    case h_2 t =>
      split at h
      case isTrue =>
        injection h with h'
        rw [h']
      case isFalse =>
        split at h
        case isTrue => exact absurd h (by simp)
        case isFalse =>
          split at h
          case h_1 =>
            injection h with h'
            rw [← h', alookup_aset_ne _ _ _ _ (Ne.symm hsne)]
          case h_2 =>
            injection h with h'
            rw [← h', alookup_aset_ne _ _ _ _ (Ne.symm hsne)]

/-- A successful tenor fold never loses an available sleeve. -/
theorem tenorFold_ok_keys (b : Bucket) (hz : ℚ)
    (entries : List ((Bucket × Sleeve) × Option ℚ)) (av avail : List (Sleeve × ℚ))
    (h : tenorFold b hz entries av = Except.ok avail) (s : Sleeve)
    (hs : s ∈ av.map Prod.fst) : s ∈ avail.map Prod.fst := by
  induction entries generalizing av with
  | nil =>
      simp only [tenorFold] at h
      injection h with h'
      exact h' ▸ hs
  | cons hd tl ih =>
      simp only [tenorFold] at h
      split at h
      case h_1 => exact absurd h (by simp)
      case h_2 av' hstep =>
        exact ih _ h (tenorStep_ok_keys _ _ _ _ _ hstep s hs)

/-- A fold over entries never keyed `(b, s)` preserves the binding of `s`. -/
theorem tenorFold_ok_other_keys (b : Bucket) (s : Sleeve) (hz : ℚ)
    (entries : List ((Bucket × Sleeve) × Option ℚ)) (av avail : List (Sleeve × ℚ))
    (h : tenorFold b hz entries av = Except.ok avail)
    (hne : ∀ e ∈ entries, e.1 ≠ (b, s)) :
    alookup avail s = alookup av s := by
  induction entries generalizing av with
  | nil =>
      simp only [tenorFold] at h
      injection h with h'
      rw [h']
  | cons hd tl ih =>
      simp only [tenorFold] at h
      split at h
      case h_1 => exact absurd h (by simp)
      case h_2 av' hstep =>
        rw [ih _ h (fun e he => hne e (List.mem_cons_of_mem _ he)),
          tenorStep_ok_other_key _ _ _ _ _ _ hstep (hne hd (List.mem_cons_self _ _))]

/-- When the entry table has unique keys, an inherited sleeve with a positive
own tenor ends bound to the minimum of the inherited and the own tenor. -/
theorem tenorFold_min_rule (b : Bucket) (s : Sleeve) (hz p t : ℚ)
    (entries : List ((Bucket × Sleeve) × Option ℚ)) (av avail : List (Sleeve × ℚ))
    (hnd : (entries.map Prod.fst).Nodup)
    (hprev : alookup av s = some p)
    (hmem : ((b, s), some t) ∈ entries) (htpos : 0 < t)
    (hfold : tenorFold b hz entries av = Except.ok avail) :
    alookup avail s = some (min p t) := by
  induction entries generalizing av with
  | nil => cases hmem
  | cons hd tl ih =>
      simp only [List.map_cons, List.nodup_cons] at hnd
      simp only [tenorFold] at hfold
      cases hstep : tenorStep b hz av hd with
      | error e =>
          rw [hstep] at hfold
          exact absurd hfold (by simp)
      | ok av' =>
          rw [hstep] at hfold
          by_cases hhd : hd = ((b, s), some t)
          · subst hhd
            by_cases hex : FLOAT_TOLERANCE < t - hz
            · exfalso
              have : tenorStep b hz av ((b, s), some t) =
                  Except.error (.tenorExceedsHorizon b) := by
                simp [tenorStep, not_le.mpr htpos, hex]
              rw [this] at hstep
              exact Except.noConfusion hstep
            · have hav' : av' = aset av s (min p t) := by
                have : tenorStep b hz av ((b, s), some t) =
                    Except.ok (aset av s (min p t)) := by
                  simp [tenorStep, not_le.mpr htpos, hex, hprev]
                rw [this] at hstep
                injection hstep with h'
                exact h'.symm
              have hnokey : ∀ e ∈ tl, e.1 ≠ (b, s) := by
                intro e he hc
                have hm : e.1 ∈ List.map Prod.fst tl := List.mem_map_of_mem Prod.fst he
                rw [hc] at hm
                exact hnd.1 hm
              rw [tenorFold_ok_other_keys _ _ _ _ _ _ hfold hnokey, hav',
                alookup_aset_self]
          · have hmem' : ((b, s), some t) ∈ tl := by
              rcases List.mem_cons.mp hmem with h' | h'
              · exact absurd h'.symm hhd
              · exact h'
            have hne : hd.1 ≠ (b, s) := by
              intro hc
              have hm : (b, s) ∈ List.map Prod.fst tl := by
                simpa using List.mem_map_of_mem Prod.fst hmem'
              rw [hc] at hnd
              exact hnd.1 hm
            have hpres : alookup av' s = some p := by
              rw [tenorStep_ok_other_key _ _ _ _ _ _ hstep hne]
              exact hprev
            exact ih av' hnd.2 hpres hmem' hfold

/-- C8 amended: a successful `_tenors_for_bucket` call keeps every inherited
sleeve available (so the available set is non-decreasing along the horizon
order), and when the sleeve also has a positive own tenor entry (under unique
entry keys), the minimum of the inherited and own tenors is stored; own
entries that are absent or non-positive leave the inherited tenor in place. -/
theorem c8_inheritance_min_rule (b : Bucket) (horizons : List (Bucket × ℚ))
    (tenors : List ((Bucket × Sleeve) × Option ℚ)) (prev avail : List (Sleeve × ℚ))
    (h : tenors_for_bucket b horizons tenors prev = Except.ok avail) :
    (∀ s ∈ prev.map Prod.fst, s ∈ avail.map Prod.fst) ∧
    (∀ s p t, (tenors.map Prod.fst).Nodup → alookup prev s = some p →
      ((b, s), some t) ∈ tenors → 0 < t → alookup avail s = some (min p t)) := by
  unfold tenors_for_bucket at h
  split at h
  · exact absurd h (by simp)
  · next hz hhz =>
    split at h
    case h_1 => exact absurd h (by simp)
    case h_2 av hfold =>
      split at h
      case isTrue => exact absurd h (by simp)
      case isFalse =>
        injection h with h'
        subst h'
        constructor
        · exact fun s hs => tenorFold_ok_keys _ _ _ _ _ hfold s hs
        · exact fun s p t hnd hprev hmem htpos =>
            tenorFold_min_rule b s hz p t tenors prev av hnd hprev hmem htpos hfold

/-- C8 witness: inheriting rates at tenor 1 and owning a shorter tenor 1/2
stores the minimum 1/2. -/
theorem c8_inheritance_min_rule_witness :
    alookup [("rates", (1 : ℚ) / 2)] "rates" = some (min (1 : ℚ) (1 / 2)) :=
  (c8_inheritance_min_rule "B" [("A", 1), ("B", 2)] [(("B", "rates"), some (1 / 2))]
    [("rates", 1)] [("rates", 1 / 2)] rfl).2 "rates" 1 (1 / 2)
    (by decide) rfl (by decide) (by norm_num)

/-- C8 counterexample: with an inherited rates tenor 1 and an own non-positive
entry -3, the stored tenor stays 1 rather than the literal minimum -3, so the
claim's unconditional minimum rule fails for non-positive own entries. -/
theorem c8_min_rule_nonpositive_counterexample :
    tenors_for_bucket "B" [("A", 1), ("B", 2)] [(("B", "rates"), some (-3))]
      [("rates", 1)] = Except.ok [("rates", 1)] ∧
    min (1 : ℚ) (-3) = -3 ∧ (1 : ℚ) ≠ -3 :=
  ⟨rfl, by norm_num, by norm_num⟩

/-- Every entry of a clamped solution is non-negative. -/
theorem clampSolution_nonneg (sol : List ℚ) (x : ℚ) (hx : x ∈ clampSolution sol) :
    0 ≤ x := by
  obtain ⟨y, _, hy⟩ := List.mem_map.mp hx
  by_cases h : 0 < y
  · simp only [if_pos h] at hy
    exact le_of_lt (hy ▸ h)
  · simp only [if_neg h] at hy
    exact le_of_eq hy

/-- A mapped sum splits along a boolean filter. -/
theorem sum_map_filter_split {α : Type} (l : List α) (f : α → ℚ) (P : α → Bool) :
    (l.map f).sum =
      ((l.filter P).map f).sum + ((l.filter (fun a => ! P a)).map f).sum := by
  induction l with
  | nil => simp
  | cons hd tl ih =>
      by_cases h : P hd
      · simp [h, ih]
        ring
      · simp [h, ih]
        ring

/-- A mapped sum with pointwise bound `c` is at most `length * c`. -/
theorem sum_map_le_length_mul {α : Type} (l : List α) (f : α → ℚ) (c : ℚ)
    (h : ∀ a ∈ l, f a ≤ c) : (l.map f).sum ≤ l.length * c := by
  induction l with
  | nil => simp
  | cons hd tl ih =>
      simp only [List.map_cons, List.sum_cons, List.length_cons]
      have h1 := h hd (List.mem_cons_self _ _)
      have h2 := ih (fun a ha => h a (List.mem_cons_of_mem _ ha))
      push_cast
      linarith

/-- A mapped sum of non-negative terms is non-negative. -/
theorem sum_map_nonneg {α : Type} (l : List α) (f : α → ℚ)
    (h : ∀ a ∈ l, 0 ≤ f a) : 0 ≤ (l.map f).sum :=
  List.sum_nonneg (by intro x hx; obtain ⟨a, ha, rfl⟩ := List.mem_map.mp hx; exact h a ha)

/-- Sums of pointwise-close functions over a list stay close. -/
theorem sum_abs_le_length_mul {α : Type} (l : List α) (f g : α → ℚ) (c : ℚ)
    (_hc : 0 ≤ c) (h : ∀ a ∈ l, |f a - g a| ≤ c) :
    |(l.map f).sum - (l.map g).sum| ≤ l.length * c := by
  induction l with
  | nil => simp
  | cons hd tl ih =>
      simp only [List.map_cons, List.sum_cons, List.length_cons]
      have h1 := h hd (List.mem_cons_self _ _)
      have h2 := ih (fun a ha => h a (List.mem_cons_of_mem _ ha))
      have htri : |f hd + (tl.map f).sum - (g hd + (tl.map g).sum)| ≤
          |f hd - g hd| + |(tl.map f).sum - (tl.map g).sum| := by
        have h3 := abs_add (f hd - g hd) ((tl.map f).sum - (tl.map g).sum)
        have h4 : f hd + (tl.map f).sum - (g hd + (tl.map g).sum) =
            (f hd - g hd) + ((tl.map f).sum - (tl.map g).sum) := by ring
        rw [h4]
        exact h3
      push_cast
      linarith

/-- A key present among a dictionary's keys has a binding. -/
theorem alookup_isSome_of_mem_fst {α β : Type} [DecidableEq α] (d : List (α × β)) (k : α)
    (h : k ∈ d.map Prod.fst) : ∃ v, alookup d k = some v := by
  induction d with
  | nil => cases h
  | cons hd tl ih =>
      obtain ⟨k₁, v₁⟩ := hd
      by_cases h₁ : k₁ = k
      · exact ⟨v₁, by simp [alookup, h₁]⟩
      · simp only [List.map_cons, List.mem_cons] at h
        rcases h with h' | h'
        · exact absurd h'.symm h₁
        · obtain ⟨v, hv⟩ := ih h'
          exact ⟨v, by simp [alookup, h₁, hv]⟩

/-- Normalised weights are keyed by the kept positive weights. -/
theorem normalise_keys (values norm : List (Bucket × ℚ))
    (h : normalise_weights values = Except.ok norm) :
    norm.map Prod.fst = (values.filter (fun p => decide (0 < p.2))).map Prod.fst := by
  obtain ⟨_, hnorm⟩ := normalise_ok_elim _ _ h
  rw [hnorm, List.map_map]
  rfl

/-- Every normalised weight lies in `(0, 1]` and they sum to one. -/
theorem normalise_values (values norm : List (Bucket × ℚ))
    (h : normalise_weights values = Except.ok norm) :
    (∀ b v, alookup norm b = some v → 0 < v ∧ v ≤ 1) ∧
    (norm.map Prod.snd).sum = 1 := by
  obtain ⟨htot, hnorm⟩ := normalise_ok_elim _ _ h
  constructor
  · intro b v hv
    have hmem := mem_of_alookup _ _ _ hv
    rw [hnorm] at hmem
    obtain ⟨p, hp, hpe⟩ := List.mem_map.mp hmem
    have hval : p.2 / ((values.filter (fun p => decide (0 < p.2))).map Prod.snd).sum = v :=
      congrArg Prod.snd hpe
    have hppos : 0 < p.2 := by simpa using (List.of_mem_filter hp)
    constructor
    · rw [← hval]
      exact div_pos hppos htot
    · rw [← hval]
      rw [div_le_one htot]
      refine List.single_le_sum ?_ _ (List.mem_map_of_mem Prod.snd hp)
      intro x hx
      obtain ⟨q, hq, rfl⟩ := List.mem_map.mp hx
      exact le_of_lt (by simpa using (List.of_mem_filter hq))
  · rw [hnorm, List.map_map]
    have : (Prod.snd ∘ fun p : Bucket × ℚ =>
        (p.1, p.2 / ((values.filter (fun p => decide (0 < p.2))).map Prod.snd).sum)) =
        fun p : Bucket × ℚ =>
          p.2 * (((values.filter (fun p => decide (0 < p.2))).map Prod.snd).sum)⁻¹ := by
      funext p
      simp [div_eq_mul_inv]
    rw [this, List.sum_map_mul_right]
    exact mul_inv_cancel₀ (ne_of_gt htot)

/-- Python `isclose` at tolerance 1e-9 against a target of magnitude at most
one bounds the distance by 2e-9. -/
theorem isclose_abs_le (a v : ℚ) (h : isclose a v (1 / 10 ^ 9) (1 / 10 ^ 9) = true)
    (hv : |v| ≤ 1) : |a - v| ≤ 2 / 10 ^ 9 := by
  have hle : |a - v| ≤ max ((1 / 10 ^ 9) * max |a| |v|) (1 / 10 ^ 9) := by
    simpa [isclose] using h
  by_cases hM : max |a| |v| ≤ 2
  · refine le_trans hle (max_le ?_ ?_)
    · nlinarith [le_max_left ((1:ℚ)/10^9 * max |a| |v|) ((1:ℚ)/10^9)]
    · norm_num
  · exfalso
    have ha2 : 2 < |a| := by
      rcases max_cases |a| |v| with ⟨he, _⟩ | ⟨he, _⟩
      · rw [he] at hM
        exact lt_of_not_le hM
      · rw [he] at hM
        exact absurd (le_trans hv (by norm_num)) hM
    have hav : |a| - |v| ≤ |a - v| := abs_sub_abs_le_abs_sub _ _
    have hmax : max |a| |v| = |a| := max_eq_left (le_trans hv (by linarith))
    rw [hmax] at hle
    rcases max_cases ((1 / 10 ^ 9 : ℚ) * |a|) ((1 : ℚ) / 10 ^ 9) with ⟨he, _⟩ | ⟨he, _⟩
    · rw [he] at hle
      nlinarith
    · rw [he] at hle
      nlinarith

/-- The recorded share of a bucket is the sum of its kept solution values. -/
theorem bucketShare_assemble (vars : List (Bucket × Sleeve × ℚ)) (sol : List ℚ)
    (b : Bucket) :
    bucketShare (assembleResult vars sol) b =
      ((keptPairs vars sol).map (fun p => if p.1.1 = b then p.2 else 0)).sum := by
  unfold bucketShare assembleResult
  rw [assembleFold_by_bucket, alookupD_accum, sum_filter_key]
  have h0 : alookupD ([] : List (Bucket × ℚ)) b 0 = 0 := rfl
  rw [show (⟨[], [], []⟩ : RiskOptimizationResult).by_bucket = [] from rfl, h0, zero_add,
    List.map_map]
  rfl

/-- Summing a dictionary's bindings over its own keys gives its value total. -/
theorem sum_alookupD_keys {α : Type} [DecidableEq α] (d : List (α × ℚ))
    (hnd : (d.map Prod.fst).Nodup) :
    ((d.map Prod.fst).map (fun k => alookupD d k 0)).sum = (d.map Prod.snd).sum := by
  induction d with
  | nil => simp
  | cons hd tl ih =>
      obtain ⟨k, v⟩ := hd
      simp only [List.map_cons, List.nodup_cons] at hnd
      simp only [List.map_cons, List.sum_cons]
      have h1 : alookupD ((k, v) :: tl) k 0 = v := by simp [alookupD, alookup]
      have h2 : (List.map Prod.fst tl).map (fun k' => alookupD ((k, v) :: tl) k' 0) =
          (List.map Prod.fst tl).map (fun k' => alookupD tl k' 0) := by
        refine List.map_congr_left ?_
        intro k' hk'
        have hne : k ≠ k' := fun hc => hnd.1 (hc ▸ hk')
        simp [alookupD, alookup, hne]
      rw [h1, h2, ih hnd.2]

/-- C2 amended: each bucket's recorded share tracks its weight divided by the
sum of the positive weights — not the weight divided by 100 — within an
explicit solver tolerance, the normalised weights sum to one, and the shares
summed over the buckets total one within tolerance: the caller's weight scale
is renormalised, not reproduced. -/
theorem c2_bucket_totals_renormalised (spec : ProblemSpec)
    (res : RiskOptimizationResult) (norm : List (Bucket × ℚ)) (ordered : List Bucket)
    (bst : List (Bucket × List (Sleeve × ℚ))) (vars : List (Bucket × Sleeve × ℚ))
    (hnd : (spec.bucket_weights.map Prod.fst).Nodup)
    (hn : normalise_weights spec.bucket_weights = Except.ok norm)
    (hs : sorted_buckets norm spec.bucket_horizons = Except.ok ordered)
    (hd : discoverSleeves spec ordered [] = Except.ok bst)
    (hv : buildVariables bst = Except.ok vars)
    (hrun : run_risk_equal_optimization spec = Except.ok res) :
    (∀ b ∈ ordered, |bucketShare res b - alookupD norm b 0| ≤
      2 / 10 ^ 9 + vars.length * (1 / 10 ^ 9)) ∧
    (norm.map Prod.snd).sum = 1 ∧
    |(ordered.map (fun b => bucketShare res b)).sum - 1| ≤
      ordered.length * (2 / 10 ^ 9 + vars.length * (1 / 10 ^ 9)) := by
  obtain ⟨norm', ordered', bst', vars', sol, hn', hs', hd', hv', _, _, _, hbt, _, hres, _⟩ :=
    run_ok_elim spec res hrun
  have e1 : norm' = norm := by
    rw [hn'] at hn
    exact (Except.ok.injEq _ _).mp hn
  rw [e1] at hs'
  have e2 : ordered' = ordered := by
    rw [hs'] at hs
    exact (Except.ok.injEq _ _).mp hs
  rw [e2] at hd'
  have e3 : bst' = bst := by
    rw [hd'] at hd
    exact (Except.ok.injEq _ _).mp hd
  rw [e3] at hv'
  have e4 : vars' = vars := by
    rw [hv'] at hv
    exact (Except.ok.injEq _ _).mp hv
  rw [e1, e2, e4] at hbt
  rw [e4] at hres
  have hB : (0 : ℚ) ≤ 2 / 10 ^ 9 + vars.length * (1 / 10 ^ 9) := by
    have : (0 : ℚ) ≤ (vars.length : ℚ) := Nat.cast_nonneg _
    nlinarith
  have hpart1 : ∀ b ∈ ordered, |bucketShare res b - alookupD norm b 0| ≤
      2 / 10 ^ 9 + vars.length * (1 / 10 ^ 9) := by
    intro b hb
    have hbc : isclose (bucketTotal vars (clampSolution sol) b) (alookupD norm b 0)
        (1 / 10 ^ 9) (1 / 10 ^ 9) = true := by
      have := List.all_eq_true.mp hbt b hb
      simpa using this
    have hbnorm : b ∈ norm.map Prod.fst := by
      obtain ⟨hord, _⟩ := sorted_buckets_ok_elim _ _ _ hs
      rw [hord] at hb
      exact (mem_sortBy _ _ _).mp hb
    obtain ⟨v, hvlook⟩ := alookup_isSome_of_mem_fst _ _ hbnorm
    have hvD : alookupD norm b 0 = v := by simp [alookupD, hvlook]
    obtain ⟨hv0, hv1⟩ := ((normalise_values _ _ hn).1) b v hvlook
    have hclose : |bucketTotal vars (clampSolution sol) b - alookupD norm b 0| ≤
        2 / 10 ^ 9 := by
      refine isclose_abs_le _ _ hbc ?_
      rw [hvD, abs_of_pos hv0]
      exact hv1
    have hdrop : |bucketShare res b - bucketTotal vars (clampSolution sol) b| ≤
        vars.length * (1 / 10 ^ 9) := by
      have hsplit := sum_map_filter_split (vars.zip (clampSolution sol))
        (fun p => if p.1.1 = b then p.2 else 0) (fun p => decide (FLOAT_TOLERANCE < p.2))
      have hdiff : bucketShare res b - bucketTotal vars (clampSolution sol) b =
          -(((vars.zip (clampSolution sol)).filter
            (fun p => ! decide (FLOAT_TOLERANCE < p.2))).map
              (fun p => if p.1.1 = b then p.2 else 0)).sum := by
        rw [hres, bucketShare_assemble]
        unfold bucketTotal
        rw [hsplit]
        simp only [keptPairs]
        ring
      rw [hdiff, abs_neg]
      have hd0 : ∀ p ∈ (vars.zip (clampSolution sol)).filter
          (fun p => ! decide (FLOAT_TOLERANCE < p.2)),
          0 ≤ (if p.1.1 = b then p.2 else 0) ∧
          (if p.1.1 = b then p.2 else 0) ≤ 1 / 10 ^ 9 := by
        intro p hp
        have hzip := List.mem_of_mem_filter hp
        have hnn : 0 ≤ p.2 := clampSolution_nonneg _ _ (List.of_mem_zip hzip).2
        have hsmall : p.2 ≤ FLOAT_TOLERANCE := by
          have := List.of_mem_filter hp
          simp only [Bool.not_eq_true', decide_eq_false_iff_not, not_lt] at this
          exact this
        constructor
        · split
          · exact hnn
          · exact le_refl 0
        · split
          · exact le_trans hsmall (le_of_eq rfl)
          · positivity
      have hsum0 : 0 ≤ (((vars.zip (clampSolution sol)).filter
          (fun p => ! decide (FLOAT_TOLERANCE < p.2))).map
            (fun p => if p.1.1 = b then p.2 else 0)).sum :=
        sum_map_nonneg _ _ (fun p hp => (hd0 p hp).1)
      have hsum1 : (((vars.zip (clampSolution sol)).filter
          (fun p => ! decide (FLOAT_TOLERANCE < p.2))).map
            (fun p => if p.1.1 = b then p.2 else 0)).sum ≤
          vars.length * (1 / 10 ^ 9) := by
        refine le_trans (sum_map_le_length_mul _ _ _ (fun p hp => (hd0 p hp).2)) ?_
        have hlen : ((vars.zip (clampSolution sol)).filter
            (fun p => ! decide (FLOAT_TOLERANCE < p.2))).length ≤ vars.length := by
          refine le_trans (List.length_filter_le _ _) ?_
          rw [List.length_zip]
          exact min_le_left _ _
        have : ((((vars.zip (clampSolution sol)).filter
            (fun p => ! decide (FLOAT_TOLERANCE < p.2))).length : ℚ)) ≤ (vars.length : ℚ) := by
          exact_mod_cast hlen
        nlinarith
      rw [abs_of_nonneg hsum0]
      exact hsum1
    calc |bucketShare res b - alookupD norm b 0| ≤
        |bucketShare res b - bucketTotal vars (clampSolution sol) b| +
        |bucketTotal vars (clampSolution sol) b - alookupD norm b 0| := by
          have h4 : bucketShare res b - alookupD norm b 0 =
              (bucketShare res b - bucketTotal vars (clampSolution sol) b) +
              (bucketTotal vars (clampSolution sol) b - alookupD norm b 0) := by ring
          rw [h4]
          exact abs_add _ _
      _ ≤ vars.length * (1 / 10 ^ 9) + 2 / 10 ^ 9 := add_le_add hdrop hclose
      _ = 2 / 10 ^ 9 + vars.length * (1 / 10 ^ 9) := by ring
  refine ⟨hpart1, (normalise_values _ _ hn).2, ?_⟩
  have hsumlook : (ordered.map (fun b => alookupD norm b 0)).sum = 1 := by
    obtain ⟨hord, _⟩ := sorted_buckets_ok_elim _ _ _ hs
    have hperm : ordered.Perm (norm.map Prod.fst) := by
      rw [hord]
      exact perm_sortBy _ _
    have hpm := (hperm.map (fun b => alookupD norm b 0)).sum_eq
    rw [hpm]
    have hndn : (norm.map Prod.fst).Nodup := by
      rw [normalise_keys _ _ hn]
      exact ((List.filter_sublist spec.bucket_weights).map Prod.fst).nodup hnd
    rw [sum_alookupD_keys _ hndn]
    exact (normalise_values _ _ hn).2
  have habs := sum_abs_le_length_mul ordered (fun b => bucketShare res b)
    (fun b => alookupD norm b 0) _ hB hpart1
  rw [hsumlook] at habs
  exact habs

/-- C2 counterexample: for a single bucket of target weight 50 the returned
bucket total is about 1, not 50 / 100 = 0.5 — the weights are renormalised to
sum to one rather than divided by 100. -/
theorem c2_weight_scale_counterexample :
    run_risk_equal_optimization specScale = Except.ok resScale ∧
    bucketShare resScale "USD" = qScale ∧
    alookupD specScale.bucket_weights "USD" 0 / 100 = 1 / 2 ∧
    (1 / 4 : ℚ) < |qScale - 1 / 2| :=
  ⟨rfl, rfl, by norm_num [alookupD, alookup, specScale], by
    rw [abs_of_pos (by norm_num [qScale])]
    norm_num [qScale]⟩

/-- C2 witness: the amended bound evaluated on `specScale`. -/
theorem c2_bucket_totals_renormalised_witness :
    (∀ b ∈ (["USD"] : List Bucket), |bucketShare resScale b -
      alookupD [("USD", (1 : ℚ))] b 0| ≤
      2 / 10 ^ 9 + ([("USD", "rates", (5 : ℚ))] : List (Bucket × Sleeve × ℚ)).length *
        (1 / 10 ^ 9)) ∧
    (([("USD", (1 : ℚ))] : List (Bucket × ℚ)).map Prod.snd).sum = 1 ∧
    |((["USD"] : List Bucket).map (fun b => bucketShare resScale b)).sum - 1| ≤
      (["USD"] : List Bucket).length *
        (2 / 10 ^ 9 + ([("USD", "rates", (5 : ℚ))] : List (Bucket × Sleeve × ℚ)).length *
          (1 / 10 ^ 9)) :=
  c2_bucket_totals_renormalised specScale resScale [("USD", 1)] ["USD"]
    [("USD", [("rates", 5)])] [("USD", "rates", 5)]
    (by decide) (by rfl) (by rfl) (by rfl) (by rfl) (by rfl)

/-- Dot products of equal-length vectors as indexed sums. -/
theorem dot_eq_range (a b : List ℚ) (n : Nat) (ha : a.length = n) (hb : b.length = n) :
    dot a b = ∑ i ∈ Finset.range n, vget a i * vget b i := by
  induction a generalizing b n with
  | nil =>
      subst ha
      simp [dot]
  | cons x a' ih =>
      cases b with
      | nil =>
          rw [← hb] at ha
          cases ha
      | cons y b' =>
          cases n with
          | zero => cases ha
          | succ m =>
              have ha' : a'.length = m := Nat.succ_injective ha
              have hb' : b'.length = m := Nat.succ_injective hb
              have hdot : dot (x :: a') (y :: b') = x * y + dot a' b' := by
                simp [dot]
              rw [hdot, Finset.sum_range_succ']
              have h0 : vget (x :: a') 0 * vget (y :: b') 0 = x * y := rfl
              have hsucc : ∀ i, vget (x :: a') (i + 1) * vget (y :: b') (i + 1) =
                  vget a' i * vget b' i := fun i => rfl
              simp only [h0, hsucc]
              rw [ih b' m ha' hb']
              ring

/-- The squared norm as an indexed sum. -/
theorem normSq_eq_range (x : List ℚ) (n : Nat) (hx : x.length = n) :
    normSq x = ∑ i ∈ Finset.range n, (vget x i) ^ 2 := by
  induction x generalizing n with
  | nil =>
      subst hx
      simp [normSq]
  | cons a x' ih =>
      cases n with
      | zero => cases hx
      | succ m =>
          have hx' : x'.length = m := Nat.succ_injective hx
          have hns : normSq (a :: x') = a ^ 2 + normSq x' := by
            simp [normSq]
          rw [hns, Finset.sum_range_succ']
          have h0 : (vget (a :: x') 0) ^ 2 = a ^ 2 := rfl
          have hsucc : ∀ i, (vget (a :: x') (i + 1)) ^ 2 = (vget x' i) ^ 2 := fun i => rfl
          simp only [h0, hsucc]
          rw [ih m hx']
          ring

/-- A finite sum of list sums commutes into a list sum of finite sums. -/
theorem sum_comm_list_finset {α β : Type} (l : List α) (s : Finset β) (f : α → β → ℚ) :
    ∑ b ∈ s, (l.map (fun a => f a b)).sum = (l.map (fun a => ∑ b ∈ s, f a b)).sum := by
  induction l with
  | nil => simp
  | cons hd tl ih =>
      simp only [List.map_cons, List.sum_cons]
      rw [Finset.sum_add_distrib, ih]

/-- A successful recovery has the requested length. -/
theorem recoverSolution_length (rows : List (List ℚ)) (lam : List ℚ) (n : Nat) :
    (recoverSolution rows lam n).length = n := by
  simp [recoverSolution]

/-- Entries of the recovered solution are the column combinations. -/
theorem recover_vget (rows : List (List ℚ)) (lam : List ℚ) (n col : Nat) (h : col < n) :
    vget (recoverSolution rows lam n) col =
      ((rows.zip lam).map (fun p => vget p.1 col * p.2)).sum := by
  have hlen : col < ((List.range n).map (fun column =>
      ((rows.zip lam).map (fun p => vget p.1 column * p.2)).sum)).length := by
    simpa using h
  show (((List.range n).map (fun column =>
      ((rows.zip lam).map (fun p => vget p.1 column * p.2)).sum)).getD col 0) = _
  rw [List.getD_eq_getElem _ _ hlen]
  simp

/-- C1 amended: the multiplier-recovered solution is a row-space vector and
hence the minimum-norm point among all vectors producing the same row
products — the solver performs an equality-only least-norm-style solve, with
no yield objective anywhere. -/
theorem c1_solver_returns_least_norm (rows : List (List ℚ)) (lam sol y : List ℚ)
    (n : Nat) (hsol : sol = recoverSolution rows lam n)
    (hrows : ∀ r ∈ rows, r.length = n) (hy : y.length = n)
    (hagree : ∀ r ∈ rows, dot r y = dot r sol) :
    normSq sol ≤ normSq y := by
  have hslen : sol.length = n := by rw [hsol]; exact recoverSolution_length _ _ _
  have hkey : ∑ i ∈ Finset.range n, vget sol i * (vget sol i - vget y i) = 0 := by
    have h1 : ∀ i ∈ Finset.range n, vget sol i * (vget sol i - vget y i) =
        ((rows.zip lam).map (fun p =>
          vget p.1 i * p.2 * (vget sol i - vget y i))).sum := by
      intro i hi
      rw [hsol, recover_vget _ _ _ _ (Finset.mem_range.mp hi), List.sum_map_mul_right]
    rw [Finset.sum_congr rfl h1, sum_comm_list_finset]
    have h2 : ∀ p ∈ rows.zip lam,
        (∑ i ∈ Finset.range n, vget p.1 i * p.2 * (vget sol i - vget y i)) = 0 := by
      intro p hp
      have hr : p.1 ∈ rows := (List.of_mem_zip hp).1
      have hrl : p.1.length = n := hrows _ hr
      have hsum : (∑ i ∈ Finset.range n, vget p.1 i * p.2 * (vget sol i - vget y i)) =
          p.2 * ((∑ i ∈ Finset.range n, vget p.1 i * vget sol i) -
            (∑ i ∈ Finset.range n, vget p.1 i * vget y i)) := by
        rw [← Finset.sum_sub_distrib, Finset.mul_sum]
        refine Finset.sum_congr rfl ?_
        intro i _
        ring
      rw [hsum, ← dot_eq_range _ _ n hrl hslen, ← dot_eq_range _ _ n hrl hy,
        hagree _ hr]
      ring
    rw [List.map_congr_left h2]
    simp
  have hexp : (∑ i ∈ Finset.range n, (vget y i) ^ 2) =
      (∑ i ∈ Finset.range n, (vget sol i) ^ 2) +
      (∑ i ∈ Finset.range n, (vget y i - vget sol i) ^ 2) +
      2 * (∑ i ∈ Finset.range n, vget sol i * (vget y i - vget sol i)) := by
    rw [← Finset.sum_add_distrib, Finset.mul_sum, ← Finset.sum_add_distrib]
    refine Finset.sum_congr rfl ?_
    intro i _
    ring
  have hzero : (∑ i ∈ Finset.range n, vget sol i * (vget y i - vget sol i)) = 0 := by
    have : (∑ i ∈ Finset.range n, vget sol i * (vget y i - vget sol i)) =
        -(∑ i ∈ Finset.range n, vget sol i * (vget sol i - vget y i)) := by
      rw [← Finset.sum_neg_distrib]
      refine Finset.sum_congr rfl ?_
      intro i _
      ring
    rw [this, hkey, neg_zero]
  have hsq : 0 ≤ ∑ i ∈ Finset.range n, (vget y i - vget sol i) ^ 2 :=
    Finset.sum_nonneg (fun i _ => sq_nonneg _)
  rw [normSq_eq_range sol n hslen, normSq_eq_range y n hy]
  have := hexp
  rw [hzero] at this
  linarith

/-- C1 witness: for the single constraint `x₁ + x₂ = 4` the recovered point
`(2, 2)` has no larger norm than the feasible `(4, 0)`. -/
theorem c1_solver_returns_least_norm_witness :
    normSq [(2 : ℚ), 2] ≤ normSq [(4 : ℚ), 0] :=
  c1_solver_returns_least_norm [[1, 1]] [2] [(2 : ℚ), 2] [(4 : ℚ), 0] 2
    (by rfl) (by decide) (by decide) (by decide)

/-- C1 counterexample: on `specInherit` the feasible non-negative vector
`yAlt` satisfies every constraint row exactly, yet under the yield vector
`cYield` (yields differing across variables) it strictly beats the returned
allocation — the result is not a yield-maximizing LP optimum. -/
theorem c1_not_yield_optimal_counterexample :
    run_risk_equal_optimization specInherit = Except.ok resInherit ∧
    normalise_weights specInherit.bucket_weights = Except.ok normInherit ∧
    sorted_buckets normInherit specInherit.bucket_horizons = Except.ok ["A", "B"] ∧
    discoverSleeves specInherit ["A", "B"] [] = Except.ok bstInherit ∧
    buildVariables bstInherit = Except.ok varsInherit ∧
    (∀ rr ∈ allRowsOf specInherit ["A", "B"] varsInherit normInherit,
      dot rr.1 yAlt = rr.2) ∧
    (∀ x ∈ yAlt, 0 ≤ x) ∧
    dot cYield (allocationVector resInherit) < dot cYield yAlt :=
  ⟨rfl, by rfl, by rfl, by rfl, by rfl, by decide, by decide, by decide⟩

/-- A list of length at most one has equal members. -/
theorem mem_len_le_one {α : Type} (l : List α) (hl : l.length ≤ 1) (a b : α)
    (ha : a ∈ l) (hb : b ∈ l) : a = b := by
  cases l with
  | nil => cases ha
  | cons x tl =>
      cases tl with
      | nil =>
          rcases List.mem_singleton.mp ha with rfl
          rcases List.mem_singleton.mp hb with rfl
          rfl
      | cons y tl' => simp at hl

/-- The exposure dictionary binds every sleeve to its realised exposure. -/
theorem exposureDict_lookupD (vars : List (Bucket × Sleeve × ℚ)) (sol : List ℚ)
    (s : Sleeve) :
    alookupD (exposureDict vars sol) s 0 = sleeveExposure vars sol s := by
  rw [exposureDict_eq_accum, alookupD_accum, sum_filter_key]
  have h0 : alookupD ([] : List (Sleeve × ℚ)) s 0 = 0 := rfl
  rw [h0, zero_add, List.map_map]
  rfl

/-- The exposure dictionary's keys are exactly the variables' sleeves. -/
theorem mem_keys_exposureDict (vars : List (Bucket × Sleeve × ℚ)) (sol : List ℚ)
    (hlen : vars.length ≤ sol.length) (s : Sleeve) :
    s ∈ (exposureDict vars sol).map Prod.fst ↔ s ∈ vars.map (fun v => v.2.1) := by
  have hkeys : ((vars.zip sol).map
      (fun p => (p.1.2.1, p.1.2.2 * p.2))).map Prod.fst = vars.map (fun v => v.2.1) := by
    rw [List.map_map]
    have hz := List.map_fst_zip vars sol hlen
    have : (Prod.fst ∘ fun p : (Bucket × Sleeve × ℚ) × ℚ => (p.1.2.1, p.1.2.2 * p.2)) =
        (fun v : Bucket × Sleeve × ℚ => v.2.1) ∘ Prod.fst := rfl
    rw [this, ← List.map_map, hz]
  rw [exposureDict_eq_accum]
  constructor
  · intro h
    rcases mem_fst_accum _ _ _ h with h' | h'
    · cases h'
    · rw [hkeys] at h'
      exact h'
  · intro h
    refine mem_fst_accum_of_mem _ _ _ (Or.inr ?_)
    rw [hkeys]
    exact h

/-- What a passing exposure check certifies: every later exposure value is
close to the first one. -/
theorem exposuresOk_elim (vars : List (Bucket × Sleeve × ℚ)) (sol : List ℚ)
    (hok : exposuresOk vars sol = true) (hlen : ¬ (sleevesPresent vars).length ≤ 1)
    (hne : exposureDict vars sol ≠ []) :
    ∃ s₀ e₀ dtl, exposureDict vars sol = (s₀, e₀) :: dtl ∧
      ∀ e ∈ dtl.map Prod.snd, isclose e e₀ (1 / 10 ^ 8) (1 / 10 ^ 8) = true := by
  unfold exposuresOk at hok
  rw [if_neg hlen] at hok
  cases hdict : exposureDict vars sol with
  | nil => exact absurd hdict hne
  | cons hd dtl =>
      rw [hdict] at hok
      simp only [List.map_cons] at hok
      refine ⟨hd.1, hd.2, dtl, ?_, ?_⟩
      · rfl
      intro e he
      exact List.all_eq_true.mp hok e he

/-- C3: in every successful run, the realised duration-weighted exposures of
any two sleeves that have at least one discovered variable agree within an
explicit solver tolerance proportional to the largest exposure magnitude. -/
theorem c3_sleeve_exposures_equalised (spec : ProblemSpec)
    (res : RiskOptimizationResult) (norm : List (Bucket × ℚ)) (ordered : List Bucket)
    (bst : List (Bucket × List (Sleeve × ℚ))) (vars : List (Bucket × Sleeve × ℚ))
    (sol : List ℚ)
    (hn : normalise_weights spec.bucket_weights = Except.ok norm)
    (hs : sorted_buckets norm spec.bucket_horizons = Except.ok ordered)
    (hd : discoverSleeves spec ordered [] = Except.ok bst)
    (hv : buildVariables bst = Except.ok vars)
    (hsolve : solve_with_multipliers ((allRowsOf spec ordered vars norm).map Prod.fst)
      ((allRowsOf spec ordered vars norm).map Prod.snd) vars.length = Except.ok sol)
    (hrun : run_risk_equal_optimization spec = Except.ok res)
    (s₁ s₂ : Sleeve) (h₁ : s₁ ∈ sleevesPresent vars) (h₂ : s₂ ∈ sleevesPresent vars) :
    |sleeveExposure vars (clampSolution sol) s₁ -
      sleeveExposure vars (clampSolution sol) s₂| ≤
      2 * ((1 / 10 ^ 8) * maxAbsExposure vars (clampSolution sol) + 1 / 10 ^ 8) := by
  have hM0 : 0 ≤ maxAbsExposure vars (clampSolution sol) :=
    seed_le_foldr_max _ _
  have habs_le_M : ∀ s ∈ sleevesPresent vars,
      |sleeveExposure vars (clampSolution sol) s| ≤
        maxAbsExposure vars (clampSolution sol) := by
    intro s hsp
    exact le_foldr_max _ _ _ (List.mem_map_of_mem _ hsp)
  by_cases hlen : (sleevesPresent vars).length ≤ 1
  · have heq : s₁ = s₂ := mem_len_le_one _ hlen _ _ h₁ h₂
    rw [heq, sub_self, abs_zero]
    nlinarith [hM0]
  · obtain ⟨norm', ordered', bst', vars', sol', hn', hs', hd', hv', hsolve', _, _, _,
      hexpOK, hres, _⟩ := run_ok_elim spec res hrun
    have e1 : norm' = norm := by
      rw [hn'] at hn
      exact (Except.ok.injEq _ _).mp hn
    rw [e1] at hs'
    have e2 : ordered' = ordered := by
      rw [hs'] at hs
      exact (Except.ok.injEq _ _).mp hs
    rw [e2] at hd'
    have e3 : bst' = bst := by
      rw [hd'] at hd
      exact (Except.ok.injEq _ _).mp hd
    rw [e3] at hv'
    have e4 : vars' = vars := by
      rw [hv'] at hv
      exact (Except.ok.injEq _ _).mp hv
    rw [e1, e2, e4] at hsolve'
    have e5 : sol' = sol := by
      rw [hsolve'] at hsolve
      exact (Except.ok.injEq _ _).mp hsolve
    rw [e4, e5] at hexpOK
    have hsol_len : sol.length = vars.length :=
      solve_with_multipliers_length _ _ _ _ hsolve
    have hclen : vars.length ≤ (clampSolution sol).length := by
      unfold clampSolution
      rw [List.length_map, hsol_len]
    have hsleeve_mem : ∀ s ∈ sleevesPresent vars, s ∈ vars.map (fun v => v.2.1) := by
      intro s hsp
      have := (mem_sortBy _ _ _).mp hsp
      exact List.mem_dedup.mp this
    have hdne : exposureDict vars (clampSolution sol) ≠ [] := by
      intro hc
      have hk : s₁ ∈ (exposureDict vars (clampSolution sol)).map Prod.fst :=
        (mem_keys_exposureDict _ _ hclen _).mpr (hsleeve_mem _ h₁)
      rw [hc] at hk
      cases hk
    obtain ⟨s₀, e₀, dtl, hdict, hall⟩ := exposuresOk_elim _ _ hexpOK hlen hdne
    have hnd : ((exposureDict vars (clampSolution sol)).map Prod.fst).Nodup := by
      rw [exposureDict_eq_accum]
      exact nodup_fst_accum _ _ (by simp)
    have hentry : ∀ se ∈ exposureDict vars (clampSolution sol),
        se.2 = sleeveExposure vars (clampSolution sol) se.1 := by
      intro se hse
      have hl := alookup_eq_of_mem _ se.1 se.2 hnd (by
        have : se = (se.1, se.2) := rfl
        rw [← this]
        exact hse)
      have := exposureDict_lookupD vars (clampSolution sol) se.1
      rw [alookupD, hl] at this
      simpa using this
    have he₀ : e₀ = sleeveExposure vars (clampSolution sol) s₀ := by
      have := hentry (s₀, e₀) (by rw [hdict]; exact List.mem_cons_self _ _)
      simpa using this
    have hs₀mem : s₀ ∈ sleevesPresent vars := by
      have hk : s₀ ∈ (exposureDict vars (clampSolution sol)).map Prod.fst := by
        rw [hdict]
        simp
      have := (mem_keys_exposureDict _ _ hclen _).mp hk
      refine (mem_sortBy _ _ _).mpr (List.mem_dedup.mpr this)
    have hclose : ∀ s ∈ sleevesPresent vars,
        |sleeveExposure vars (clampSolution sol) s - e₀| ≤
          (1 / 10 ^ 8) * maxAbsExposure vars (clampSolution sol) + 1 / 10 ^ 8 := by
      intro s hsp
      have hk : s ∈ (exposureDict vars (clampSolution sol)).map Prod.fst :=
        (mem_keys_exposureDict _ _ hclen _).mpr (hsleeve_mem _ hsp)
      obtain ⟨e, hlook⟩ := alookup_isSome_of_mem_fst _ _ hk
      have hmem := mem_of_alookup _ _ _ hlook
      have heval : e = sleeveExposure vars (clampSolution sol) s := by
        have := hentry (s, e) hmem
        simpa using this
      rw [hdict] at hmem
      rcases List.mem_cons.mp hmem with hh | hh
      · have hse : s = s₀ ∧ e = e₀ := by
          constructor
          · exact congrArg Prod.fst hh
          · exact congrArg Prod.snd hh
        rw [← heval, hse.2, sub_self, abs_zero]
        have := habs_le_M s hsp
        nlinarith [hM0]
      · have hev : e ∈ dtl.map Prod.snd := List.mem_map_of_mem Prod.snd hh
        have hic := hall e hev
        have hb : |e - e₀| ≤ max ((1 / 10 ^ 8) * max |e| |e₀|) (1 / 10 ^ 8) := by
          simpa [isclose] using hic
        have hbe : |e| ≤ maxAbsExposure vars (clampSolution sol) := by
          rw [heval]
          exact habs_le_M s hsp
        have hbe₀ : |e₀| ≤ maxAbsExposure vars (clampSolution sol) := by
          rw [he₀]
          exact habs_le_M s₀ hs₀mem
        have hmax : max |e| |e₀| ≤ maxAbsExposure vars (clampSolution sol) :=
          max_le hbe hbe₀
        rw [← heval]
        refine le_trans hb (max_le ?_ ?_)
        · nlinarith
        · nlinarith
    have hc₁ := hclose s₁ h₁
    have hc₂ := hclose s₂ h₂
    have htri : |sleeveExposure vars (clampSolution sol) s₁ -
        sleeveExposure vars (clampSolution sol) s₂| ≤
        |sleeveExposure vars (clampSolution sol) s₁ - e₀| +
        |sleeveExposure vars (clampSolution sol) s₂ - e₀| := by
      have h4 : sleeveExposure vars (clampSolution sol) s₁ -
          sleeveExposure vars (clampSolution sol) s₂ =
          (sleeveExposure vars (clampSolution sol) s₁ - e₀) -
          (sleeveExposure vars (clampSolution sol) s₂ - e₀) := by ring
      rw [h4]
      exact abs_sub _ _
    linarith

/-- C3 witness: the exposure bound evaluated on `specInherit`. -/
theorem c3_sleeve_exposures_equalised_witness :
    |sleeveExposure varsInherit
        (clampSolution [qInherit, qInherit, qInherit, qInherit]) "rates" -
      sleeveExposure varsInherit
        (clampSolution [qInherit, qInherit, qInherit, qInherit]) "tips"| ≤
      2 * ((1 / 10 ^ 8) *
        maxAbsExposure varsInherit (clampSolution [qInherit, qInherit, qInherit, qInherit]) +
        1 / 10 ^ 8) :=
  c3_sleeve_exposures_equalised specInherit resInherit normInherit ["A", "B"]
    bstInherit varsInherit [qInherit, qInherit, qInherit, qInherit]
    (by rfl) (by rfl) (by rfl) (by rfl) (by rfl) (by rfl)
    "rates" "tips" (by decide) (by decide)

/-- The Python `min` of a list bounds every member from below. -/
theorem listMin_le_mem (l : List ℚ) (x : ℚ) (hx : x ∈ l) : listMin l ≤ x := by
  induction l with
  | nil => cases hx
  | cons a tl ih =>
      cases tl with
      | nil =>
          rcases List.mem_singleton.mp hx with rfl
          exact le_refl _
      | cons b tl' =>
          rcases List.mem_cons.mp hx with rfl | hx'
          · exact min_le_left _ _
          · exact le_trans (min_le_right _ _) (ih hx')

/-- Clamping acts entrywise, also on out-of-range reads. -/
theorem vget_clamp (sol : List ℚ) (i : Nat) :
    vget (clampSolution sol) i = if 0 < vget sol i then vget sol i else 0 := by
  induction sol generalizing i with
  | nil =>
      simp [clampSolution, vget]
  | cons a tl ih =>
      cases i with
      | zero => rfl
      | succ j => exact ih j

/-- With the negativity guard passed, clamping moves no entry by more than
the float tolerance. -/
theorem clamp_entry_bound (sol : List ℚ) (hmin : -(1 / 10 ^ 9) ≤ listMin sol)
    (i : Nat) : |vget (clampSolution sol) i - vget sol i| ≤ 1 / 10 ^ 9 := by
  rw [vget_clamp]
  by_cases h : 0 < vget sol i
  · rw [if_pos h, sub_self, abs_zero]
    norm_num
  · rw [if_neg h, zero_sub, abs_neg]
    have hv0 : -(1 / 10 ^ 9) ≤ vget sol i := by
      by_cases hi : i < sol.length
      · have hmem : vget sol i ∈ sol := by
          have := List.getD_eq_getElem sol 0 hi
          rw [vget, this]
          exact List.getElem_mem _
        exact le_trans hmin (listMin_le_mem _ _ hmem)
      · have : vget sol i = 0 := by
          rw [vget, List.getD_eq_default]
          omega
        rw [this]
        norm_num
    rw [abs_of_nonpos (not_lt.mp h)]
    linarith

/-- Clamping moves an index sum by at most one tolerance per index. -/
theorem idxSum_clamp_bound (idxs : List Nat) (sol : List ℚ)
    (hmin : -(1 / 10 ^ 9) ≤ listMin sol) :
    |idxSum idxs (clampSolution sol) - idxSum idxs sol| ≤ idxs.length * (1 / 10 ^ 9) := by
  unfold idxSum
  refine sum_abs_le_length_mul idxs (fun i => vget (clampSolution sol) i)
    (fun i => vget sol i) _ (by norm_num) ?_
  intro i _
  exact clamp_entry_bound sol hmin i

/-- A duplicate-free list of indices below `n` has at most `n` members. -/
theorem nodup_lt_length_le (l : List Nat) (n : Nat) (hnd : l.Nodup)
    (hlt : ∀ i ∈ l, i < n) : l.length ≤ n := by
  have hsub : l.toFinset ⊆ Finset.range n := by
    intro i hi
    exact Finset.mem_range.mpr (hlt i (List.mem_toFinset.mp hi))
  have := Finset.card_le_card hsub
  rwa [List.toFinset_card_of_nodup hnd, Finset.card_range] at this

/-- Two distinct members force a length above one. -/
theorem two_mem_lt_length {α : Type} (l : List α) (a b : α) (hne : a ≠ b)
    (ha : a ∈ l) (hb : b ∈ l) : 1 < l.length := by
  cases l with
  | nil => cases ha
  | cons x tl =>
      cases tl with
      | nil =>
          rcases List.mem_singleton.mp ha with rfl
          rcases List.mem_singleton.mp hb with rfl
          exact absurd rfl hne
      | cons y tl' => simp

/-- A square below a square of a non-negative bound gives an absolute bound. -/
theorem abs_le_of_sq_le (x c : ℚ) (hc : 0 ≤ c) (h : x ^ 2 ≤ c ^ 2) : |x| ≤ c := by
  rcases abs_cases x with ⟨he, _⟩ | ⟨he, _⟩ <;> nlinarith

/-- The currency row has the requested length. -/
theorem curRow_length (n : Nat) (idxs refIdx : List Nat) :
    (curRow n idxs refIdx).length = n := by
  simp [curRow]

/-- Entries of the currency row are count differences. -/
theorem curRow_vget (n : Nat) (idxs refIdx : List Nat) (j : Nat) (h : j < n) :
    vget (curRow n idxs refIdx) j = (idxs.count j : ℚ) - (refIdx.count j : ℚ) := by
  have hlen : j < ((List.range n).map
      (fun j => ((idxs.count j : ℚ) - (refIdx.count j : ℚ)))).length := by
    simpa using h
  show (((List.range n).map
      (fun j => ((idxs.count j : ℚ) - (refIdx.count j : ℚ)))).getD j 0) = _
  rw [List.getD_eq_getElem _ _ hlen]
  simp

/-- Counting occurrences against a vector recovers the index sum. -/
theorem sum_count_vget (idxs : List Nat) (x : List ℚ) (n : Nat)
    (hlt : ∀ i ∈ idxs, i < n) :
    (∑ j ∈ Finset.range n, (idxs.count j : ℚ) * vget x j) = idxSum idxs x := by
  induction idxs with
  | nil => simp [idxSum]
  | cons i rest ih =>
      have hi : i ∈ Finset.range n := Finset.mem_range.mpr (hlt i (List.mem_cons_self _ _))
      have hstep : ∀ j ∈ Finset.range n, ((i :: rest).count j : ℚ) * vget x j =
          (rest.count j : ℚ) * vget x j + (if j = i then vget x j else 0) := by
        intro j _
        rw [List.count_cons]
        by_cases hj : j = i
        · rw [if_pos hj]
          subst hj
          simp
          ring
        · rw [if_neg hj]
          have : ¬ i = j := fun hc => hj hc.symm
          simp [this]
      rw [Finset.sum_congr rfl hstep, Finset.sum_add_distrib,
        ih (fun a ha => hlt a (List.mem_cons_of_mem _ ha)), Finset.sum_ite_eq' _ _ _]
      rw [if_pos hi]
      simp [idxSum, vget]
      ring

/-- The currency row measures the difference of the two index sums. -/
theorem dot_curRow (n : Nat) (idxs refIdx : List Nat) (x : List ℚ)
    (hx : x.length = n) (h1 : ∀ i ∈ idxs, i < n) (h2 : ∀ i ∈ refIdx, i < n) :
    dot (curRow n idxs refIdx) x = idxSum idxs x - idxSum refIdx x := by
  rw [dot_eq_range _ _ n (curRow_length _ _ _) hx]
  have hpt : ∀ j ∈ Finset.range n, vget (curRow n idxs refIdx) j * vget x j =
      (idxs.count j : ℚ) * vget x j - (refIdx.count j : ℚ) * vget x j := by
    intro j hj
    rw [curRow_vget _ _ _ _ (Finset.mem_range.mp hj)]
    ring
  rw [Finset.sum_congr rfl hpt, Finset.sum_sub_distrib,
    sum_count_vget _ _ _ h1, sum_count_vget _ _ _ h2]

/-- A tiny residual sum bounds each row's residual. -/
theorem residual_row_bound (rowsRhs : List (List ℚ × ℚ)) (x : List ℚ)
    (hres : residualSumSq (rowsRhs.map Prod.fst) (rowsRhs.map Prod.snd) x ≤ 1 / 10 ^ 16)
    (rr : List ℚ × ℚ) (hrr : rr ∈ rowsRhs) : |dot rr.1 x - rr.2| ≤ 1 / 10 ^ 8 := by
  have hzip : (rowsRhs.map Prod.fst).zip (rowsRhs.map Prod.snd) =
      rowsRhs.map (fun a => (a.1, a.2)) := List.zip_map' _ _ _
  have hsq : residualSumSq (rowsRhs.map Prod.fst) (rowsRhs.map Prod.snd) x =
      (rowsRhs.map (fun a => (dot a.1 x - a.2) ^ 2)).sum := by
    unfold residualSumSq
    rw [hzip, List.map_map]
    rfl
  rw [hsq] at hres
  have hterm : (dot rr.1 x - rr.2) ^ 2 ≤ 1 / 10 ^ 16 := by
    refine le_trans ?_ hres
    refine List.single_le_sum ?_ _ (List.mem_map_of_mem _ hrr)
    intro y hy
    obtain ⟨a, _, rfl⟩ := List.mem_map.mp hy
    exact sq_nonneg _
  have h16 : (1 : ℚ) / 10 ^ 16 = (1 / 10 ^ 8) ^ 2 := by norm_num
  exact abs_le_of_sq_le _ _ (by norm_num) (by rw [← h16]; exact hterm)

/-- Invariant of the currency-grouping fold: every stored index list is
non-empty, duplicate-free and bounded by the enumeration counter. -/
theorem groupedFold_inv (spec : ProblemSpec) (vars : List (Bucket × Sleeve × ℚ))
    (k : Nat) (g : List ((Sleeve × ℚ) × List (String × List Nat)))
    (hg : ∀ key cmap c idxs, alookup g key = some cmap →
      alookup cmap c = some idxs → idxs ≠ [] ∧ idxs.Nodup ∧ ∀ i ∈ idxs, i < k) :
    ∀ key cmap c idxs,
      alookup ((List.enumFrom k vars).foldl
        (fun g p => addGroupIdx g (p.2.2.1, tenor_group_key p.2.2.2)
          (alookupD spec.bucket_currencies p.2.1 "") p.1) g) key = some cmap →
      alookup cmap c = some idxs →
      idxs ≠ [] ∧ idxs.Nodup ∧ ∀ i ∈ idxs, i < k + vars.length := by
  induction vars generalizing k g with
  | nil =>
      intro key cmap c idxs hkey hc
      simpa using hg key cmap c idxs hkey hc
  | cons v vs ih =>
      intro key cmap c idxs hkey hc
      have hg' : ∀ key' cmap' c' idxs',
          alookup (addGroupIdx g (v.2.1, tenor_group_key v.2.2)
            (alookupD spec.bucket_currencies v.1 "") k) key' = some cmap' →
          alookup cmap' c' = some idxs' →
          idxs' ≠ [] ∧ idxs'.Nodup ∧ ∀ i ∈ idxs', i < k + 1 := by
        intro key' cmap' c' idxs' hkey' hc'
        unfold addGroupIdx at hkey'
        by_cases hk : key' = (v.2.1, tenor_group_key v.2.2)
        · rw [hk, alookup_aset_self] at hkey'
          injection hkey' with hcm
          rw [← hcm] at hc'
          by_cases hcc : c' = alookupD spec.bucket_currencies v.1 ""
          · rw [hcc, alookup_aset_self] at hc'
            injection hc' with hidx
            rw [← hidx]
            cases hgl : alookup g (v.2.1, tenor_group_key v.2.2) with
            | none =>
                have hcm0 : alookupD g (v.2.1, tenor_group_key v.2.2) [] = [] := by
                  simp [alookupD, hgl]
                rw [hcm0]
                have hlst : alookupD ([] : List (String × List Nat))
                    (alookupD spec.bucket_currencies v.1 "") [] = [] := rfl
                rw [hlst]
                refine ⟨by simp, by simp, ?_⟩
                intro i hi
                rcases List.mem_singleton.mp hi with rfl
                omega
            | some cm =>
                have hcm0 : alookupD g (v.2.1, tenor_group_key v.2.2) [] = cm := by
                  simp [alookupD, hgl]
                rw [hcm0]
                cases hlk : alookup cm (alookupD spec.bucket_currencies v.1 "") with
                | none =>
                    have hlst : alookupD cm (alookupD spec.bucket_currencies v.1 "") [] = [] := by
                      simp only [alookupD] at hlk ⊢
                      rw [hlk]
                      rfl
                    rw [hlst]
                    refine ⟨by simp, by simp, ?_⟩
                    intro i hi
                    rcases List.mem_singleton.mp hi with rfl
                    omega
                | some l =>
                    have hlst : alookupD cm (alookupD spec.bucket_currencies v.1 "") [] = l := by
                      simp only [alookupD] at hlk ⊢
                      rw [hlk]
                      rfl
                    rw [hlst]
                    obtain ⟨_, hlnd, hllt⟩ := hg _ _ _ _ hgl hlk
                    refine ⟨by simp, ?_, ?_⟩
                    · rw [List.nodup_append]
                      refine ⟨hlnd, by simp, ?_⟩
                      intro a ha hb
                      rcases List.mem_singleton.mp hb with rfl
                      exact absurd (hllt _ ha) (lt_irrefl _)
                    · intro i hi
                      rcases List.mem_append.mp hi with hi' | hi'
                      · exact Nat.lt_succ_of_lt (hllt _ hi')
                      · rcases List.mem_singleton.mp hi' with rfl
                        omega
          · rw [alookup_aset_ne _ _ _ _ hcc] at hc'
            cases hgl : alookup g (v.2.1, tenor_group_key v.2.2) with
            | none =>
                have hcm0 : alookupD g (v.2.1, tenor_group_key v.2.2) [] = [] := by
                  simp [alookupD, hgl]
                rw [hcm0] at hc'
                cases hc'
            | some cm =>
                have hcm0 : alookupD g (v.2.1, tenor_group_key v.2.2) [] = cm := by
                  simp [alookupD, hgl]
                rw [hcm0] at hc'
                obtain ⟨hne, hnd, hlt⟩ := hg _ _ _ _ hgl hc'
                exact ⟨hne, hnd, fun i hi => Nat.lt_succ_of_lt (hlt i hi)⟩
        · rw [alookup_aset_ne _ _ _ _ hk] at hkey'
          obtain ⟨hne, hnd, hlt⟩ := hg _ _ _ _ hkey' hc'
          exact ⟨hne, hnd, fun i hi => Nat.lt_succ_of_lt (hlt i hi)⟩
      have hfold : (List.enumFrom k (v :: vs)).foldl
          (fun g p => addGroupIdx g (p.2.2.1, tenor_group_key p.2.2.2)
            (alookupD spec.bucket_currencies p.2.1 "") p.1) g =
          (List.enumFrom (k + 1) vs).foldl
            (fun g p => addGroupIdx g (p.2.2.1, tenor_group_key p.2.2.2)
              (alookupD spec.bucket_currencies p.2.1 "") p.1)
            (addGroupIdx g (v.2.1, tenor_group_key v.2.2)
              (alookupD spec.bucket_currencies v.1 "") k) := by
        simp [List.enumFrom]
      rw [hfold] at hkey
      obtain ⟨hne, hnd, hlt⟩ := ih (k + 1) _ hg' key cmap c idxs hkey hc
      refine ⟨hne, hnd, ?_⟩
      intro i hi
      have := hlt i hi
      simp only [List.length_cons]
      omega

/-- The grouped table's index lists are non-empty, duplicate-free and index
into the variable list. -/
theorem buildGrouped_invariant (spec : ProblemSpec)
    (vars : List (Bucket × Sleeve × ℚ)) (key : Sleeve × ℚ)
    (cmap : List (String × List Nat)) (c : String) (idxs : List Nat)
    (hkey : alookup (buildGrouped spec vars) key = some cmap)
    (hc : alookup cmap c = some idxs) :
    idxs ≠ [] ∧ idxs.Nodup ∧ ∀ i ∈ idxs, i < vars.length := by
  have hbase : ∀ key cmap c idxs,
      alookup ([] : List ((Sleeve × ℚ) × List (String × List Nat))) key = some cmap →
      alookup cmap c = some idxs → idxs ≠ [] ∧ idxs.Nodup ∧ ∀ i ∈ idxs, i < 0 := by
    intro _ _ _ _ h _
    cases h
  have hdef : buildGrouped spec vars = (List.enumFrom 0 vars).foldl
      (fun g p => addGroupIdx g (p.2.2.1, tenor_group_key p.2.2.2)
        (alookupD spec.bucket_currencies p.2.1 "") p.1) [] := rfl
  rw [hdef] at hkey
  have := groupedFold_inv spec vars 0 [] hbase key cmap c idxs hkey hc
  simpa using this

/-- Each non-reference currency with stored indices contributes its
balancing row to the constraint system. -/
theorem currencyRow_mem (spec : ProblemSpec) (vars : List (Bucket × Sleeve × ℚ))
    (key : Sleeve × ℚ) (cmap : List (String × List Nat)) (ref : String)
    (others : List String) (refIdx idxs : List Nat) (c : String)
    (hg : alookup (buildGrouped spec vars) key = some cmap)
    (hlen : ¬ cmap.length ≤ 1)
    (hsort : sortBy strLt (cmap.map Prod.fst) = ref :: others)
    (href : alookup cmap ref = some refIdx) (hrne : refIdx ≠ [])
    (hc : c ∈ others) (hix : alookup cmap c = some idxs) (hne : idxs ≠ [])
    (hrow : (curRow vars.length idxs refIdx).any (fun x => decide (x ≠ 0)) = true) :
    (curRow vars.length idxs refIdx, (0 : ℚ)) ∈ currencyRowsOf spec vars := by
  unfold currencyRowsOf
  refine List.mem_flatMap.mpr ⟨(key, cmap), mem_of_alookup _ _ _ hg, ?_⟩
  have hrefD : alookupD cmap ref [] = refIdx := by simp [alookupD, href]
  have hixD : alookupD cmap c [] = idxs := by simp [alookupD, hix]
  have hrE : refIdx.isEmpty = false := by
    cases refIdx with
    | nil => exact absurd rfl hrne
    | cons a b => rfl
  have hiE : idxs.isEmpty = false := by
    cases idxs with
    | nil => exact absurd rfl hne
    | cons a b => rfl
  simp only [if_neg hlen, hsort, hrefD, hrE, Bool.false_eq_true, if_false]
  refine List.mem_flatMap.mpr ⟨c, hc, ?_⟩
  simp only [hixD, hiE, Bool.false_eq_true, if_false, if_pos hrow]
  exact List.mem_singleton.mpr rfl

/-- C9: in every successful run, within each (sleeve, rounded tenor) group
the total allocation of any two currencies agrees within an explicit solver
tolerance — currency balancing is enforced as an equality-constraint family. -/
theorem c9_currency_totals_balanced (spec : ProblemSpec)
    (res : RiskOptimizationResult) (norm : List (Bucket × ℚ)) (ordered : List Bucket)
    (bst : List (Bucket × List (Sleeve × ℚ))) (vars : List (Bucket × Sleeve × ℚ))
    (sol : List ℚ)
    (hn : normalise_weights spec.bucket_weights = Except.ok norm)
    (hs : sorted_buckets norm spec.bucket_horizons = Except.ok ordered)
    (hd : discoverSleeves spec ordered [] = Except.ok bst)
    (hv : buildVariables bst = Except.ok vars)
    (hsolve : solve_with_multipliers ((allRowsOf spec ordered vars norm).map Prod.fst)
      ((allRowsOf spec ordered vars norm).map Prod.snd) vars.length = Except.ok sol)
    (hrun : run_risk_equal_optimization spec = Except.ok res)
    (key : Sleeve × ℚ) (cmap : List (String × List Nat))
    (hg : alookup (buildGrouped spec vars) key = some cmap)
    (c₁ c₂ : String) (idx₁ idx₂ : List Nat)
    (h₁ : alookup cmap c₁ = some idx₁) (h₂ : alookup cmap c₂ = some idx₂)
    (hcne : c₁ ≠ c₂) :
    |idxSum idx₁ (clampSolution sol) - idxSum idx₂ (clampSolution sol)| ≤
      2 / 10 ^ 8 + 2 * vars.length * (1 / 10 ^ 9) := by
  obtain ⟨norm', ordered', bst', vars', sol', hn', hs', hd', hv', hsolve', hres16,
    hmin, _, _, hres, _⟩ := run_ok_elim spec res hrun
  have e1 : norm' = norm := by
    rw [hn'] at hn
    exact (Except.ok.injEq _ _).mp hn
  rw [e1] at hs'
  have e2 : ordered' = ordered := by
    rw [hs'] at hs
    exact (Except.ok.injEq _ _).mp hs
  rw [e2] at hd'
  have e3 : bst' = bst := by
    rw [hd'] at hd
    exact (Except.ok.injEq _ _).mp hd
  rw [e3] at hv'
  have e4 : vars' = vars := by
    rw [hv'] at hv
    exact (Except.ok.injEq _ _).mp hv
  rw [e1, e2, e4] at hsolve'
  have e5 : sol' = sol := by
    rw [hsolve'] at hsolve
    exact (Except.ok.injEq _ _).mp hsolve
  rw [e1, e2, e4, e5] at hres16
  rw [e5] at hmin
  have hsol_len : sol.length = vars.length :=
    solve_with_multipliers_length _ _ _ _ hsolve
  obtain ⟨hne₁, hnd₁, hlt₁⟩ := buildGrouped_invariant spec vars key cmap c₁ idx₁ hg h₁
  obtain ⟨hne₂, hnd₂, hlt₂⟩ := buildGrouped_invariant spec vars key cmap c₂ idx₂ hg h₂
  have hk₁ : c₁ ∈ cmap.map Prod.fst := by
    have := mem_of_alookup _ _ _ h₁
    exact List.mem_map_of_mem Prod.fst this
  have hk₂ : c₂ ∈ cmap.map Prod.fst := by
    have := mem_of_alookup _ _ _ h₂
    exact List.mem_map_of_mem Prod.fst this
  have hcmaplen : ¬ cmap.length ≤ 1 := by
    have h2m : 1 < (cmap.map Prod.fst).length :=
      two_mem_lt_length _ _ _ hcne hk₁ hk₂
    rw [List.length_map] at h2m
    omega
  cases hsort : sortBy strLt (cmap.map Prod.fst) with
  | nil =>
      exfalso
      have : c₁ ∈ sortBy strLt (cmap.map Prod.fst) := (mem_sortBy _ _ _).mpr hk₁
      rw [hsort] at this
      cases this
  | cons ref others =>
      have hrefk : ref ∈ cmap.map Prod.fst := by
        have : ref ∈ sortBy strLt (cmap.map Prod.fst) := by
          rw [hsort]
          exact List.mem_cons_self _ _
        exact (mem_sortBy _ _ _).mp this
      obtain ⟨refIdx, href⟩ := alookup_isSome_of_mem_fst _ _ hrefk
      obtain ⟨hneR, hndR, hltR⟩ := buildGrouped_invariant spec vars key cmap ref refIdx hg href
      have hdiff : ∀ (c : String) (idxs : List Nat), alookup cmap c = some idxs →
          |idxSum idxs sol - idxSum refIdx sol| ≤ 1 / 10 ^ 8 := by
        intro c idxs hix
        obtain ⟨hneI, hndI, hltI⟩ := buildGrouped_invariant spec vars key cmap c idxs hg hix
        have hck : c ∈ cmap.map Prod.fst :=
          List.mem_map_of_mem Prod.fst (mem_of_alookup _ _ _ hix)
        have hcs : c ∈ ref :: others := by
          rw [← hsort]
          exact (mem_sortBy _ _ _).mpr hck
        rcases List.mem_cons.mp hcs with rfl | hco
        · have heq : idxs = refIdx := by
            rw [hix] at href
            exact (Option.some.injEq _ _).mp href
          rw [heq, sub_self, abs_zero]
          norm_num
        · by_cases hrow : (curRow vars.length idxs refIdx).any (fun x => decide (x ≠ 0)) = true
          · have hmem : (curRow vars.length idxs refIdx, (0 : ℚ)) ∈
                allRowsOf spec ordered vars norm := by
              unfold allRowsOf
              refine List.mem_append.mpr (Or.inr ?_)
              exact currencyRow_mem spec vars key cmap ref others refIdx idxs c
                hg hcmaplen hsort href hneR hco hix hneI hrow
            have hb := residual_row_bound _ _ hres16 _ hmem
            have hb' : |dot (curRow vars.length idxs refIdx) sol - 0| ≤ 1 / 10 ^ 8 := hb
            rw [dot_curRow _ _ _ _ hsol_len hltI hltR, sub_zero] at hb'
            exact hb'
          · have hallz : ∀ x ∈ curRow vars.length idxs refIdx, x = 0 := by
              have hf : (curRow vars.length idxs refIdx).any
                  (fun x => decide (x ≠ 0)) = false :=
                Bool.eq_false_iff.mpr hrow
              intro x hx
              have := List.any_eq_false.mp hf x hx
              simpa using this
            have hzero : ∀ j ∈ Finset.range vars.length,
                (idxs.count j : ℚ) * vget sol j = (refIdx.count j : ℚ) * vget sol j := by
              intro j hj
              have hjlt := Finset.mem_range.mp hj
              have hjl : j < (curRow vars.length idxs refIdx).length := by
                rw [curRow_length]
                exact hjlt
              have hmemv : vget (curRow vars.length idxs refIdx) j ∈
                  curRow vars.length idxs refIdx := by
                simp only [vget]
                rw [List.getD_eq_getElem _ _ hjl]
                exact List.getElem_mem _
              have h0 := hallz _ hmemv
              rw [curRow_vget _ _ _ _ hjlt] at h0
              have hce : (idxs.count j : ℚ) = (refIdx.count j : ℚ) := by linarith
              rw [hce]
            have hsums : idxSum idxs sol = idxSum refIdx sol := by
              rw [← sum_count_vget _ _ _ hltI, ← sum_count_vget _ _ _ hltR]
              exact Finset.sum_congr rfl hzero
            rw [hsums, sub_self, abs_zero]
            norm_num
      have hb₁ := hdiff c₁ idx₁ h₁
      have hb₂ := hdiff c₂ idx₂ h₂
      have hraw : |idxSum idx₁ sol - idxSum idx₂ sol| ≤ 2 / 10 ^ 8 := by
        calc |idxSum idx₁ sol - idxSum idx₂ sol|
            ≤ |idxSum idx₁ sol - idxSum refIdx sol| +
              |idxSum refIdx sol - idxSum idx₂ sol| := abs_sub_le _ _ _
          _ ≤ 1 / 10 ^ 8 + 1 / 10 ^ 8 := by
              rw [abs_sub_comm (idxSum refIdx sol)]
              exact add_le_add hb₁ hb₂
          _ = 2 / 10 ^ 8 := by norm_num
      have hl₁ : (idx₁.length : ℚ) ≤ (vars.length : ℚ) := by
        exact_mod_cast nodup_lt_length_le idx₁ vars.length hnd₁ hlt₁
      have hl₂ : (idx₂.length : ℚ) ≤ (vars.length : ℚ) := by
        exact_mod_cast nodup_lt_length_le idx₂ vars.length hnd₂ hlt₂
      have hm₁ : |idxSum idx₁ (clampSolution sol) - idxSum idx₁ sol| ≤
          (vars.length : ℚ) * (1 / 10 ^ 9) :=
        le_trans (idxSum_clamp_bound idx₁ sol hmin)
          (mul_le_mul_of_nonneg_right hl₁ (by norm_num))
      have hm₂ : |idxSum idx₂ (clampSolution sol) - idxSum idx₂ sol| ≤
          (vars.length : ℚ) * (1 / 10 ^ 9) :=
        le_trans (idxSum_clamp_bound idx₂ sol hmin)
          (mul_le_mul_of_nonneg_right hl₂ (by norm_num))
      have d₁ := abs_le.mp hm₁
      have d₂ := abs_le.mp hm₂
      have d₃ := abs_le.mp hraw
      rw [abs_le]
      constructor
      · linarith [d₁.1, d₁.2, d₂.1, d₂.2, d₃.1, d₃.2]
      · linarith [d₁.1, d₁.2, d₂.1, d₂.2, d₃.1, d₃.2]

theorem c9_currency_totals_balanced_witness :
    |idxSum [0] (clampSolution [qTwoCur, qTwoCur]) -
      idxSum [1] (clampSolution [qTwoCur, qTwoCur])| ≤
      2 / 10 ^ 8 + 2 * (varsTwoCur.length : ℚ) * (1 / 10 ^ 9) :=
  c9_currency_totals_balanced specTwoCurrencies resTwoCur normTwoCur ["A", "B"]
    bstTwoCur varsTwoCur [qTwoCur, qTwoCur]
    (by rfl) (by rfl) (by rfl) (by rfl) (by rfl) (by rfl)
    ("rates", 1 / 2) cmapTwoCur (by rfl)
    "USD" "EUR" [0] [1] (by rfl) (by rfl) (by decide)

end Moneyalloc
